import Mathlib

/-!
Verification of the CPU-Scheduler-Simulator engine (src/scheduling_algorithms.py).

The four scheduling functions (fcfs, sjf, round_robin, priority_scheduling) are
embedded as executable Lean functions over lists of process records.  The
pandas DataFrame of the source is modelled as a `List Proc` in the caller's row
order; positional indices `i` into the DataFrame become list indices.  Process
ids (strings "P1", "P2", ... in the UI, but the engine works with any
caller-supplied ids) are modelled as naturals.  All times are integers, as in
the source (streamlit number_input produces Python ints).  The while-loops of
the source are embedded as fuel-indexed recursions returning `Option`: `none`
means the loop did not finish within the given fuel (the source's
`round_robin` really does loop forever when `time_quantum ≤ 0`), and each
entry point supplies a concrete fuel bound that is proved sufficient for valid
inputs.
-/

namespace CPUSched

/-- One row of the input DataFrame: columns pid, arrival_time, burst_time,
priority (the priority column always exists; app.py fills a default 1 for the
non-priority algorithms). -/
structure Proc where
  pid : Nat
  arrival_time : Int
  burst_time : Int
  priority : Int
deriving DecidableEq, Repr

/-- Label of a schedule entry: the source uses the string 'Idle' as a sentinel
pid distinct from every process pid. -/
inductive SegId where
  | Idle : SegId
  | P : Nat → SegId
deriving DecidableEq, Repr

/-- One entry of the schedule list built by every algorithm:
dictionaries with keys pid, start_time, end_time. -/
structure Segment where
  pid : SegId
  start_time : Int
  end_time : Int
deriving DecidableEq, Repr

/-- One row of the metrics DataFrame returned by every algorithm. -/
structure MetricsRow where
  pid : Nat
  arrival_time : Int
  burst_time : Int
  priority : Int
  completion_time : Int
  turnaround_time : Int
  waiting_time : Int
deriving DecidableEq, Repr

/-- Default row used to make positional DataFrame access `df.loc[i, ...]`
total; all accesses in the algorithms are in bounds. -/
def dflt : Proc := ⟨0, 0, 0, 0⟩

/-- Valid input per the spec's data model: arrival_time ≥ 0, burst_time > 0,
unique ids. -/
def ValidInput (ps : List Proc) : Prop :=
  (∀ p ∈ ps, 0 ≤ p.arrival_time ∧ 1 ≤ p.burst_time) ∧ (ps.map Proc.pid).Nodup

instance (ps : List Proc) : Decidable (ValidInput ps) := by
  unfold ValidInput; infer_instance

/-! ### Generic linear argmin scan

Each algorithm scans `for i in range(n)` keeping the first index whose key is
strictly smaller than the best so far (Python compares with `<` against the
running minimum, so ties keep the earlier index).  `none` plays the role of
the initial `float('inf')` / index `-1` pair. -/

/-- One step of the linear minimum scan of the source loops. -/
def scanStep (elig : Nat → Bool) (key : Nat → Int) (acc : Option Nat) (i : Nat) : Option Nat :=
  if elig i then
    match acc with
    | none => some i
    | some m => if key i < key m then some i else some m
  else acc

/-- The full scan `for i in range(n): if eligible and key < best: take i`. -/
def scanMinIdx (elig : Nat → Bool) (key : Nat → Int) (l : List Nat) : Option Nat :=
  l.foldl (scanStep elig key) none

theorem scanMinIdx_range_succ (elig : Nat → Bool) (key : Nat → Int) (n : Nat) :
    scanMinIdx elig key (List.range (n + 1)) =
      scanStep elig key (scanMinIdx elig key (List.range n)) n := by
  simp [scanMinIdx, List.range_succ, List.foldl_append]

theorem scanMinIdx_none (elig : Nat → Bool) (key : Nat → Int) (n : Nat) :
    scanMinIdx elig key (List.range n) = none ↔ ∀ i, i < n → elig i = false := by
  induction n with
  | zero => simp [scanMinIdx]
  | succ n ih =>
    rw [scanMinIdx_range_succ]
    constructor
    · intro h i hi
      rcases hn : scanMinIdx elig key (List.range n) with _ | m
      · rw [hn] at h
        unfold scanStep at h
        rcases Nat.lt_succ_iff_lt_or_eq.mp hi with hi' | rfl
        · exact (ih.mp hn) i hi'
        · by_contra he
          simp [Bool.not_eq_false] at he
          simp [he] at h
      · rw [hn] at h
        unfold scanStep at h
        by_cases he : elig n = true <;> simp [he] at h
        split at h <;> simp at h
    · intro h
      have hn : scanMinIdx elig key (List.range n) = none :=
        ih.mpr fun i hi => h i (Nat.lt_succ_of_lt hi)
      rw [hn]
      unfold scanStep
      simp [h n (Nat.lt_succ_self n)]

theorem scanMinIdx_some (elig : Nat → Bool) (key : Nat → Int) (n : Nat) (m : Nat)
    (h : scanMinIdx elig key (List.range n) = some m) :
    m < n ∧ elig m = true ∧
      (∀ i, i < n → elig i = true → key m ≤ key i) ∧
      (∀ i, i < m → elig i = true → key m < key i) := by
  induction n generalizing m with
  | zero => simp [scanMinIdx] at h
  | succ n ih =>
    rw [scanMinIdx_range_succ] at h
    rcases hn : scanMinIdx elig key (List.range n) with _ | m'
    · rw [hn] at h
      unfold scanStep at h
      by_cases he : elig n = true
      · simp [he] at h
        subst h
        refine ⟨Nat.lt_succ_self n, he, ?_, ?_⟩
        · intro i hi hei
          rcases Nat.lt_succ_iff_lt_or_eq.mp hi with hi' | rfl
          · exact absurd hei (by simpa using (scanMinIdx_none elig key n).mp hn i hi')
          · exact le_refl _
        · intro i hi hei
          exact absurd hei (by simpa using (scanMinIdx_none elig key n).mp hn i hi)
      · simp [he] at h
    · rw [hn] at h
      obtain ⟨hm'n, hem', hmin', hfirst'⟩ := ih m' hn
      unfold scanStep at h
      by_cases he : elig n = true
      · simp [he] at h
        by_cases hk : key n < key m'
        · simp [hk] at h
          subst h
          refine ⟨Nat.lt_succ_self n, he, ?_, ?_⟩
          · intro i hi hei
            rcases Nat.lt_succ_iff_lt_or_eq.mp hi with hi' | rfl
            · exact le_of_lt (lt_of_lt_of_le hk (hmin' i hi' hei))
            · exact le_refl _
          · intro i hi hei
            exact lt_of_lt_of_le hk (hmin' i hi hei)
        · simp [hk] at h
          subst h
          refine ⟨Nat.lt_succ_of_lt hm'n, hem', ?_, hfirst'⟩
          intro i hi hei
          rcases Nat.lt_succ_iff_lt_or_eq.mp hi with hi' | rfl
          · exact hmin' i hi' hei
          · exact le_of_not_lt hk
      · simp [he] at h
        subst h
        refine ⟨Nat.lt_succ_of_lt hm'n, hem', ?_, hfirst'⟩
        intro i hi hei
        rcases Nat.lt_succ_iff_lt_or_eq.mp hi with hi' | rfl
        · exact hmin' i hi' hei
        · exact absurd hei (by simpa using he)

theorem scanMinIdx_isSome (elig : Nat → Bool) (key : Nat → Int) (n : Nat) (j : Nat)
    (hj : j < n) (hje : elig j = true) :
    ∃ m, scanMinIdx elig key (List.range n) = some m := by
  rcases hs : scanMinIdx elig key (List.range n) with _ | m
  · exact absurd ((scanMinIdx_none elig key n).mp hs j hj) (by simp [hje])
  · exact ⟨m, rfl⟩

/-! ### Timeline predicates

These formalise the spec's tiling property: the schedule entries are
contiguous from time 0, and each entry has end_time > start_time. -/

/-- Checks that the segments chain contiguously from time t with every
segment of positive length. -/
def chainFrom : Int → List Segment → Bool
  | _, [] => true
  | t, s :: r =>
    decide (s.start_time = t) && decide (s.start_time < s.end_time) && chainFrom s.end_time r

/-- The clock value after the given segments, starting from t. -/
def chainEnd : Int → List Segment → Int
  | t, [] => t
  | _, s :: r => chainEnd s.end_time r

theorem chainFrom_append (t : Int) (xs ys : List Segment) :
    chainFrom t (xs ++ ys) = (chainFrom t xs && chainFrom (chainEnd t xs) ys) := by
  induction xs generalizing t with
  | nil => simp [chainFrom, chainEnd]
  | cons s r ih => simp [chainFrom, chainEnd, ih, Bool.and_assoc]

theorem chainEnd_append (t : Int) (xs ys : List Segment) :
    chainEnd t (xs ++ ys) = chainEnd (chainEnd t xs) ys := by
  induction xs generalizing t with
  | nil => simp [chainEnd]
  | cons s r ih => simp [chainEnd, ih]

theorem chainFrom_single (t : Int) (s : Segment) :
    chainFrom t [s] = (decide (s.start_time = t) && decide (s.start_time < s.end_time)) := by
  simp [chainFrom]

theorem chainEnd_single (t : Int) (s : Segment) : chainEnd t [s] = s.end_time := rfl

theorem chainFrom_pos (t : Int) (l : List Segment) (h : chainFrom t l = true) :
    ∀ s ∈ l, s.start_time < s.end_time := by
  induction l generalizing t with
  | nil => simp
  | cons s r ih =>
    simp only [chainFrom, Bool.and_eq_true, decide_eq_true_eq] at h
    intro u hu
    rcases List.mem_cons.mp hu with rfl | hu
    · exact h.1.2
    · exact ih s.end_time h.2 u hu

/-- Total time the schedule gives to the process id x (the non-Idle segment
durations of x, summed). -/
def pidTime (x : Nat) (segs : List Segment) : Int :=
  (segs.map fun s => if s.pid = SegId.P x then s.end_time - s.start_time else 0).sum

theorem pidTime_nil (x : Nat) : pidTime x [] = 0 := rfl

theorem pidTime_append (x : Nat) (xs ys : List Segment) :
    pidTime x (xs ++ ys) = pidTime x xs + pidTime x ys := by
  simp [pidTime]

theorem pidTime_single (x : Nat) (s : Segment) :
    pidTime x [s] = if s.pid = SegId.P x then s.end_time - s.start_time else 0 := by
  simp [pidTime]

/-! ### Small list lemmas used by the loop invariants -/

theorem getD_set_self {α : Type} (l : List α) (i : Nat) (v d : α) (h : i < l.length) :
    (l.set i v).getD i d = v := by
  induction l generalizing i with
  | nil => simp at h
  | cons a r ih =>
    cases i with
    | zero => simp [List.set]
    | succ i => simpa [List.set] using ih i (by simpa using h)

theorem getD_set_ne {α : Type} (l : List α) (i j : Nat) (v d : α) (h : i ≠ j) :
    (l.set i v).getD j d = l.getD j d := by
  induction l generalizing i j with
  | nil => simp [List.set]
  | cons a r ih =>
    cases i with
    | zero =>
      cases j with
      | zero => exact absurd rfl h
      | succ j => simp [List.set]
    | succ i =>
      cases j with
      | zero => simp [List.set]
      | succ j => simpa [List.set] using ih i j (fun he => h (by rw [he]))

theorem getD_map_proc (f : Proc → Int) (ps : List Proc) (i : Nat) (h : i < ps.length) :
    (ps.map f).getD i 0 = f (ps.getD i dflt) := by
  induction ps generalizing i with
  | nil => simp at h
  | cons p r ih =>
    cases i with
    | zero => simp
    | succ i => simpa using ih i (by simpa using h)

theorem sum_set_int (l : List Int) (i : Nat) (v : Int) (h : i < l.length) :
    (l.set i v).sum = l.sum - l.getD i 0 + v := by
  induction l generalizing i with
  | nil => simp at h
  | cons a r ih =>
    cases i with
    | zero => simp [List.set]; ring
    | succ i =>
      simp only [List.set, List.sum_cons]
      rw [ih i (by simpa using h)]
      simp [List.getD]
      ring

theorem getD_eq_get {α : Type} (l : List α) (d : α) (i : Nat) (h : i < l.length) :
    l.getD i d = l.get ⟨i, h⟩ := by
  rw [List.getD_eq_getElem?_getD, List.getElem?_eq_getElem h]
  rfl

theorem getD_le_sum (l : List Int) (hpos : ∀ i, i < l.length → 0 ≤ l.getD i 0) (k : Nat)
    (hk : k < l.length) : l.getD k 0 ≤ l.sum := by
  induction l generalizing k with
  | nil => simp at hk
  | cons a r ih =>
    have har : ∀ i, i < r.length → 0 ≤ r.getD i 0 := by
      intro i hi
      simpa using hpos (i + 1) (by simpa using hi)
    have ha : 0 ≤ a := by simpa using hpos 0 (by simp)
    have hr : 0 ≤ r.sum := by
      have hmem : ∀ x ∈ r, 0 ≤ x := by
        intro x hx
        obtain ⟨i, hi, rfl⟩ := List.mem_iff_getElem.mp hx
        have := har i hi
        rwa [List.getD_eq_getElem?_getD, List.getElem?_eq_getElem hi] at this
      exact List.sum_nonneg hmem
    cases k with
    | zero =>
      have h0 : (a :: r).getD 0 0 = a := rfl
      rw [h0, List.sum_cons]
      omega
    | succ k =>
      have h1 : (a :: r).getD (k + 1) 0 = r.getD k 0 := rfl
      have h2 := ih har k (by simpa using hk)
      rw [h1, List.sum_cons]
      omega

theorem sum_pos_exists (l : List Int) (h : 0 < l.sum) :
    ∃ i, i < l.length ∧ 0 < l.getD i 0 := by
  induction l with
  | nil => simp at h
  | cons a r ih =>
    by_cases ha : 0 < a
    · exact ⟨0, by simp, by simpa using ha⟩
    · have : 0 < r.sum := by
        simp only [List.sum_cons] at h
        omega
      obtain ⟨i, hi, hp⟩ := ih this
      exact ⟨i + 1, by simpa using hi, by simpa using hp⟩

theorem mem_iff_getD (ps : List Proc) (p : Proc) :
    p ∈ ps ↔ ∃ i, i < ps.length ∧ ps.getD i dflt = p := by
  constructor
  · intro h
    obtain ⟨i, hi, rfl⟩ := List.mem_iff_getElem.mp h
    refine ⟨i, hi, ?_⟩
    rw [List.getD_eq_getElem?_getD, List.getElem?_eq_getElem hi]
    rfl
  · rintro ⟨i, hi, rfl⟩
    have he : ps.getD i dflt = ps[i] := by
      rw [List.getD_eq_getElem?_getD, List.getElem?_eq_getElem hi]
      rfl
    rw [he]
    exact List.getElem_mem hi

theorem getD_mem (ps : List Proc) (i : Nat) (h : i < ps.length) : ps.getD i dflt ∈ ps :=
  (mem_iff_getD ps _).mpr ⟨i, h, rfl⟩

theorem pid_injective (ps : List Proc) (hnd : (ps.map Proc.pid).Nodup) (i j : Nat)
    (hi : i < ps.length) (hj : j < ps.length) (hne : i ≠ j) :
    (ps.getD i dflt).pid ≠ (ps.getD j dflt).pid := by
  have hi' : i < (ps.map Proc.pid).length := by simpa using hi
  have hj' : j < (ps.map Proc.pid).length := by simpa using hj
  intro he
  apply hne
  have hinj := List.nodup_iff_injective_get.mp hnd
  have hg : (ps.map Proc.pid).get ⟨i, hi'⟩ = (ps.map Proc.pid).get ⟨j, hj'⟩ := by
    rw [List.get_map, List.get_map]
    rw [getD_eq_get ps dflt i hi, getD_eq_get ps dflt j hj] at he
    exact he
  exact congrArg Fin.val (hinj hg)

theorem count_true_lt (l : List Bool) (h : l.count true ≠ l.length) :
    ∃ i, i < l.length ∧ l.getD i false = false := by
  induction l with
  | nil => simp at h
  | cons a r ih =>
    cases a with
    | false => exact ⟨0, by simp, rfl⟩
    | true =>
      have hc : (true :: r).count true = r.count true + 1 := List.count_cons_self true r
      have hr : r.count true ≠ r.length := by
        intro he
        apply h
        rw [hc, he, List.length_cons]
      obtain ⟨i, hi, hv⟩ := ih hr
      exact ⟨i + 1, by simpa using hi, hv⟩

theorem all_true_of_count (l : List Bool) (h : l.count true = l.length) :
    ∀ i, i < l.length → l.getD i false = true := by
  induction l with
  | nil => simp
  | cons a r ih =>
    cases a with
    | false =>
      exfalso
      have hc : (false :: r).count true = r.count true :=
        List.count_cons_of_ne (by decide) r
      have hle := List.count_le_length true r
      rw [hc, List.length_cons] at h
      omega
    | true =>
      intro i hi
      cases i with
      | zero => rfl
      | succ i =>
        have hc : (true :: r).count true = r.count true + 1 := List.count_cons_self true r
        have hr : r.count true = r.length := by
          rw [hc, List.length_cons] at h
          omega
        exact ih hr i (by simpa using hi)

theorem count_true_le (l : List Bool) : l.count true ≤ l.length :=
  List.count_le_length true l

theorem count_set_true (l : List Bool) (i : Nat) (h : i < l.length)
    (hv : l.getD i false = false) :
    (l.set i true).count true = l.count true + 1 := by
  induction l generalizing i with
  | nil => simp at h
  | cons a r ih =>
    cases i with
    | zero =>
      have ha : a = false := hv
      subst ha
      have h1 : (true :: r).count true = r.count true + 1 := List.count_cons_self true r
      have h2 : (false :: r).count true = r.count true :=
        List.count_cons_of_ne (by decide) r
      simp only [List.set, h1, h2]
    | succ i =>
      have h1 : ((a :: r).set (i + 1) true).count true = (a :: (r.set i true)).count true := rfl
      have h2 := ih i (by simpa using h) hv
      cases a with
      | false =>
        have h3 : (false :: r.set i true).count true = (r.set i true).count true :=
          List.count_cons_of_ne (by decide) _
        have h4 : (false :: r).count true = r.count true :=
          List.count_cons_of_ne (by decide) _
        rw [h1, h3, h4, h2]
      | true =>
        have h3 : (true :: r.set i true).count true = (r.set i true).count true + 1 :=
          List.count_cons_self true _
        have h4 : (true :: r).count true = r.count true + 1 := List.count_cons_self true _
        rw [h1, h3, h4, h2]

/-! ### FCFS (src/scheduling_algorithms.py lines 15-72) -/

/-- Key projection of an input row (pid, arrival_time, burst_time, priority). -/
def procKey (p : Proc) : Nat × Int × Int × Int :=
  (p.pid, p.arrival_time, p.burst_time, p.priority)

/-- Key projection of a metrics row (pid, arrival_time, burst_time, priority). -/
def rowKey (r : MetricsRow) : Nat × Int × Int × Int :=
  (r.pid, r.arrival_time, r.burst_time, r.priority)

/-- Comparison used by fcfs's sort_values(by=['arrival_time', 'pid']). -/
def fcfsLE (a b : Proc) : Bool :=
  decide (a.arrival_time < b.arrival_time) ||
    (decide (a.arrival_time = b.arrival_time) && decide (a.pid ≤ b.pid))

/-- The initial sort of fcfs (line 28).  With unique pids the sorted order is
determined, so the sort kind does not matter. -/
def fcfsSort (ps : List Proc) : List Proc := ps.mergeSort fcfsLE

/-- Clock value at which the process starts: the gap check of lines 41-49. -/
def fcfsStart (t : Int) (p : Proc) : Int := if t < p.arrival_time then p.arrival_time else t

/-- Metrics row written by lines 59-61 (completion, turnaround, waiting). -/
def fcfsRow (t : Int) (p : Proc) : MetricsRow :=
  { pid := p.pid, arrival_time := p.arrival_time, burst_time := p.burst_time,
    priority := p.priority, completion_time := fcfsStart t p + p.burst_time,
    turnaround_time := fcfsStart t p + p.burst_time - p.arrival_time,
    waiting_time := fcfsStart t p + p.burst_time - p.arrival_time - p.burst_time }

/-- The for-loop of fcfs (lines 39-64) over the sorted process list. -/
def fcfsGo : Int → List Proc → List Segment × List MetricsRow
  | _, [] => ([], [])
  | t, p :: rest =>
    ((if t < p.arrival_time then [⟨SegId.Idle, t, p.arrival_time⟩] else []) ++
        ⟨SegId.P p.pid, fcfsStart t p, fcfsStart t p + p.burst_time⟩ ::
          (fcfsGo (fcfsStart t p + p.burst_time) rest).1,
      fcfsRow t p :: (fcfsGo (fcfsStart t p + p.burst_time) rest).2)

/-- First Come First Serve: sort by (arrival_time, pid), then run each process
in order, inserting Idle segments for gaps. -/
def fcfs (ps : List Proc) : List Segment × List MetricsRow :=
  fcfsGo 0 (fcfsSort ps)

theorem fcfsGo_spec (l : List Proc) : ∀ t : Int, 0 ≤ t →
    (∀ p ∈ l, 0 ≤ p.arrival_time ∧ 1 ≤ p.burst_time) →
    (l.map Proc.pid).Nodup →
    chainFrom t (fcfsGo t l).1 = true ∧
    (∀ x : Nat, (∀ p ∈ l, p.pid ≠ x) → pidTime x (fcfsGo t l).1 = 0) ∧
    (∀ p ∈ l, pidTime p.pid (fcfsGo t l).1 = p.burst_time) ∧
    (fcfsGo t l).2.map rowKey = l.map procKey ∧
    (∀ r ∈ (fcfsGo t l).2,
      r.turnaround_time = r.completion_time - r.arrival_time ∧
      r.waiting_time = r.turnaround_time - r.burst_time ∧
      r.burst_time ≤ r.turnaround_time ∧ 0 ≤ r.waiting_time) ∧
    (l ≠ [] → (fcfsGo t l).1 ≠ []) := by
  induction l with
  | nil =>
    intro t ht hv hnd
    refine ⟨rfl, ?_, ?_, rfl, ?_, ?_⟩
    · intro x _
      rfl
    · intro p hp
      simp at hp
    · intro r hr
      simp only [fcfsGo] at hr
      simp at hr
    · intro h
      exact absurd rfl h
  | cons p rest ih =>
    intro t ht hv hnd
    have hp := hv p (List.mem_cons_self p rest)
    have hstart_a : p.arrival_time ≤ fcfsStart t p := by
      unfold fcfsStart
      split <;> omega
    have hstart_t : t ≤ fcfsStart t p := by
      unfold fcfsStart
      split <;> omega
    have hct : 0 ≤ fcfsStart t p + p.burst_time := by omega
    have hvrest : ∀ q ∈ rest, 0 ≤ q.arrival_time ∧ 1 ≤ q.burst_time :=
      fun q hq => hv q (List.mem_cons_of_mem p hq)
    have hndrest : (rest.map Proc.pid).Nodup := by
      simp only [List.map_cons, List.nodup_cons] at hnd
      exact hnd.2
    have hpid_rest : ∀ q ∈ rest, q.pid ≠ p.pid := by
      intro q hq he
      simp only [List.map_cons, List.nodup_cons] at hnd
      exact hnd.1 (he ▸ List.mem_map_of_mem Proc.pid hq)
    obtain ⟨ihchain, ihzero, ihtime, ihrows, ihmet, _⟩ :=
      ih (fcfsStart t p + p.burst_time) hct hvrest hndrest
    have hchain : chainFrom t (fcfsGo t (p :: rest)).1 = true := by
      by_cases hgap : t < p.arrival_time
      · have hs : fcfsStart t p = p.arrival_time := if_pos hgap
        simp only [fcfsGo, if_pos hgap, hs] at ihchain ⊢
        simp only [List.cons_append, List.nil_append, chainFrom, Bool.and_eq_true,
          decide_eq_true_eq]
        exact ⟨⟨trivial, hgap⟩, ⟨trivial, by omega⟩, ihchain⟩
      · have hs : fcfsStart t p = t := if_neg hgap
        simp only [fcfsGo, if_neg hgap, hs] at ihchain ⊢
        simp only [List.nil_append, chainFrom, Bool.and_eq_true, decide_eq_true_eq]
        exact ⟨⟨trivial, by omega⟩, ihchain⟩
    refine ⟨hchain, ?_, ?_, ?_, ?_, ?_⟩
    · -- processes whose pid is absent get zero time
      intro x hx
      simp only [fcfsGo]
      rw [pidTime_append]
      have h1 : pidTime x (if t < p.arrival_time then [⟨SegId.Idle, t, p.arrival_time⟩] else []) = 0 := by
        split <;> simp [pidTime]
      have hpx : p.pid ≠ x := hx p (List.mem_cons_self p rest)
      have h2 : pidTime x (fcfsGo (fcfsStart t p + p.burst_time) rest).1 = 0 :=
        ihzero x fun q hq => hx q (List.mem_cons_of_mem p hq)
      have h3 : (⟨SegId.P p.pid, fcfsStart t p, fcfsStart t p + p.burst_time⟩ : Segment).pid
          ≠ SegId.P x := by
        simp [hpx]
      calc pidTime x _ + pidTime x (_ :: _) = 0 + pidTime x (_ :: _) := by rw [h1]
        _ = 0 := by
            simp only [pidTime, List.map_cons, List.sum_cons, if_neg h3]
            simpa [pidTime] using h2
    · -- each process gets exactly its burst
      intro q hq
      rcases List.mem_cons.mp hq with rfl | hq
      · simp only [fcfsGo]
        rw [pidTime_append]
        have h1 : pidTime q.pid (if t < q.arrival_time then [⟨SegId.Idle, t, q.arrival_time⟩] else []) = 0 := by
          split <;> simp [pidTime]
        have h2 : pidTime q.pid (fcfsGo (fcfsStart t q + q.burst_time) rest).1 = 0 :=
          ihzero q.pid hpid_rest
        rw [h1]
        simp only [pidTime, List.map_cons, List.sum_cons, if_pos rfl]
        simpa [pidTime] using h2
      · simp only [fcfsGo]
        rw [pidTime_append]
        have h1 : pidTime q.pid (if t < p.arrival_time then [⟨SegId.Idle, t, p.arrival_time⟩] else []) = 0 := by
          split <;> simp [pidTime]
        have hne : (⟨SegId.P p.pid, fcfsStart t p, fcfsStart t p + p.burst_time⟩ : Segment).pid
            ≠ SegId.P q.pid := by
          simp only [Segment.pid]
          intro he
          exact hpid_rest q hq (by injection he with h; rw [h])
        rw [h1]
        simp only [pidTime, List.map_cons, List.sum_cons, if_neg hne]
        simpa [pidTime] using ihtime q hq
    · -- metrics rows follow the input order of the (sorted) list
      simp only [fcfsGo, List.map_cons, ihrows]
      rfl
    · -- metrics identities
      intro r hr
      simp only [fcfsGo] at hr
      rcases List.mem_cons.mp hr with rfl | hr
      · unfold fcfsRow
        refine ⟨rfl, rfl, ?_, ?_⟩ <;> simp only [] <;> omega
      · exact ihmet r hr
    · intro _
      simp only [fcfsGo]
      intro he
      rcases List.append_eq_nil.mp he with ⟨_, h2⟩
      exact List.cons_ne_nil _ _ h2

/-! ### SJF (src/scheduling_algorithms.py lines 75-153) -/

/-- Eligibility test of the selection loops: arrived and not completed
(sjf line 108, priority_scheduling line 297). -/
def eligibleB (df : List Proc) (t : Int) (isC : List Bool) (i : Nat) : Bool :=
  decide ((df.getD i dflt).arrival_time ≤ t) && !(isC.getD i false)

/-- Selection loop of sjf (lines 104-111): first index of minimum burst_time
among arrived, uncompleted processes (strict < against the running minimum,
so ties keep the lowest index). -/
def sjfSelect (df : List Proc) (t : Int) (isC : List Bool) : Option Nat :=
  scanMinIdx (eligibleB df t isC) (fun i => (df.getD i dflt).burst_time)
    (List.range df.length)

/-- Next-arrival loop of sjf (lines 116-119) and of priority_scheduling
(lines 305-308): index of minimum arrival_time among uncompleted processes.
The source keeps only the minimum value; the value at the returned index is
that same minimum. -/
def nextArrivalIdx (df : List Proc) (isC : List Bool) : Option Nat :=
  scanMinIdx (fun i => !(isC.getD i false)) (fun i => (df.getD i dflt).arrival_time)
    (List.range df.length)

/-- The while-loop of sjf (lines 102-145), fuel-indexed: pick the arrived
process with minimal burst, run it to completion, otherwise idle-skip to the
next arrival. -/
def sjfLoop (df : List Proc) : Nat → Int → Nat → List Bool → List Int → List Segment →
    Option (List Segment × List Int)
  | 0, _, completed, _, comp, sched =>
    if completed = df.length then some (sched, comp) else none
  | fuel + 1, t, completed, isC, comp, sched =>
    if completed = df.length then some (sched, comp)
    else
      match sjfSelect df t isC with
      | none =>
        match nextArrivalIdx df isC with
        | none => none
        | some j =>
          sjfLoop df fuel ((df.getD j dflt).arrival_time) completed isC comp
            (sched ++ [⟨SegId.Idle, t, (df.getD j dflt).arrival_time⟩])
      | some i =>
        sjfLoop df fuel (t + (df.getD i dflt).burst_time) (completed + 1) (isC.set i true)
          (comp.set i (t + (df.getD i dflt).burst_time))
          (sched ++ [⟨SegId.P (df.getD i dflt).pid, t, t + (df.getD i dflt).burst_time⟩])

/-- Metrics table construction (sjf lines 147-151, and the analogous final
blocks of round_robin and priority_scheduling): the df copy in its row order
with completion, turnaround = completion - arrival, waiting = turnaround -
burst columns appended. -/
def mkMetrics : List Proc → List Int → List MetricsRow
  | [], _ => []
  | p :: rest, comp =>
    { pid := p.pid, arrival_time := p.arrival_time, burst_time := p.burst_time,
      priority := p.priority, completion_time := comp.getD 0 0,
      turnaround_time := comp.getD 0 0 - p.arrival_time,
      waiting_time := comp.getD 0 0 - p.arrival_time - p.burst_time } ::
      mkMetrics rest (comp.drop 1)

/-- Shortest Job First, non-preemptive (lines 75-153).  The fuel 2n+1 is
proved sufficient for valid inputs: each iteration either completes a process
or is an idle skip immediately followed by a completion. -/
def sjf (ps : List Proc) : Option (List Segment × List MetricsRow) :=
  match sjfLoop ps (2 * ps.length + 1) 0 0 (List.replicate ps.length false)
      (List.replicate ps.length 0) [] with
  | none => none
  | some (sched, comp) => some (sched, mkMetrics ps comp)

/-- Loop invariant of sjf: lengths, completed counter, completion bound for
finished processes, schedule tiling from 0 up to the clock, and executed time
per process. -/
structure SjfInv (df : List Proc) (t : Int) (completed : Nat) (isC : List Bool)
    (comp : List Int) (sched : List Segment) : Prop where
  lenC : isC.length = df.length
  lenK : comp.length = df.length
  cnt : completed = isC.count true
  tnn : 0 ≤ t
  done : ∀ i, i < df.length → isC.getD i false = true →
    (df.getD i dflt).arrival_time + (df.getD i dflt).burst_time ≤ comp.getD i 0
  chain : chainFrom 0 sched = true
  cend : chainEnd 0 sched = t
  ptime : ∀ i, i < df.length →
    pidTime (df.getD i dflt).pid sched =
      (if isC.getD i false = true then (df.getD i dflt).burst_time else 0)

theorem sjf_select_step (df : List Proc)
    (hv : ∀ p ∈ df, 0 ≤ p.arrival_time ∧ 1 ≤ p.burst_time)
    (hnd : (df.map Proc.pid).Nodup)
    (t : Int) (completed : Nat) (isC : List Bool) (comp : List Int) (sched : List Segment)
    (i : Nat) (hInv : SjfInv df t completed isC comp sched)
    (hsel : sjfSelect df t isC = some i) :
    i < df.length ∧
    SjfInv df (t + (df.getD i dflt).burst_time) (completed + 1) (isC.set i true)
      (comp.set i (t + (df.getD i dflt).burst_time))
      (sched ++ [⟨SegId.P (df.getD i dflt).pid, t, t + (df.getD i dflt).burst_time⟩]) := by
  obtain ⟨hin, helig, _, _⟩ := scanMinIdx_some _ _ _ _ hsel
  have hb := hv (df.getD i dflt) (getD_mem df i hin)
  have harr : (df.getD i dflt).arrival_time ≤ t := by
    have := helig
    unfold eligibleB at this
    simp only [Bool.and_eq_true, decide_eq_true_eq] at this
    exact this.1
  have hnotC : isC.getD i false = false := by
    have := helig
    unfold eligibleB at this
    simp only [Bool.and_eq_true, Bool.not_eq_true'] at this
    exact this.2
  refine ⟨hin, ?_⟩
  refine
    { lenC := by rw [List.length_set, hInv.lenC]
      lenK := by rw [List.length_set, hInv.lenK]
      cnt := by
        rw [count_set_true isC i (by rw [hInv.lenC]; exact hin) hnotC, hInv.cnt]
      tnn := by omega
      done := ?_, chain := ?_, cend := ?_, ptime := ?_ }
  · intro j hj hjC
    by_cases hji : j = i
    · subst hji
      rw [getD_set_self comp j _ 0 (by rw [hInv.lenK]; exact hj)]
      omega
    · rw [getD_set_ne isC i j true false (fun he => hji he.symm)] at hjC
      rw [getD_set_ne comp i j _ 0 (fun he => hji he.symm)]
      exact hInv.done j hj hjC
  · rw [chainFrom_append, hInv.cend, hInv.chain, chainFrom_single]
    simp only [Bool.true_and, Bool.and_eq_true, decide_eq_true_eq]
    exact ⟨trivial, by omega⟩
  · rw [chainEnd_append, hInv.cend, chainEnd_single]
  · intro j hj
    rw [pidTime_append, pidTime_single]
    by_cases hji : j = i
    · subst hji
      rw [getD_set_self isC j true false (by rw [hInv.lenC]; exact hj)]
      rw [hInv.ptime j hj, if_pos rfl, if_neg (by simpa using hnotC), if_pos rfl]
      ring
    · rw [getD_set_ne isC i j true false (fun he => hji he.symm)]
      have hpne : SegId.P (df.getD i dflt).pid ≠ SegId.P (df.getD j dflt).pid := by
        intro he
        exact pid_injective df hnd i j hin hj (fun he2 => hji he2.symm) (by injection he)
      rw [hInv.ptime j hj, if_neg hpne]
      ring

theorem getD_replicate_self {α : Type} (c : α) (n i : Nat) :
    (List.replicate n c).getD i c = c := by
  induction n generalizing i with
  | zero => rfl
  | succ n ih =>
    cases i with
    | zero => rfl
    | succ i => exact ih i

theorem mkMetrics_rowKey (df : List Proc) : ∀ comp : List Int,
    (mkMetrics df comp).map rowKey = df.map procKey := by
  induction df with
  | nil => intro comp; rfl
  | cons p rest ih =>
    intro comp
    simp only [mkMetrics, List.map_cons, ih (comp.drop 1)]
    rfl

theorem mkMetrics_mem (df : List Proc) (r : MetricsRow) : ∀ comp : List Int,
    r ∈ mkMetrics df comp →
    ∃ i, i < df.length ∧
      r = { pid := (df.getD i dflt).pid, arrival_time := (df.getD i dflt).arrival_time,
            burst_time := (df.getD i dflt).burst_time, priority := (df.getD i dflt).priority,
            completion_time := comp.getD i 0,
            turnaround_time := comp.getD i 0 - (df.getD i dflt).arrival_time,
            waiting_time := comp.getD i 0 - (df.getD i dflt).arrival_time -
              (df.getD i dflt).burst_time } := by
  induction df with
  | nil =>
    intro comp hr
    simp [mkMetrics] at hr
  | cons p rest ih =>
    intro comp hr
    simp only [mkMetrics, List.mem_cons] at hr
    rcases hr with rfl | hr
    · exact ⟨0, by simp, rfl⟩
    · obtain ⟨i, hi, hre⟩ := ih (comp.drop 1) hr
      refine ⟨i + 1, by simpa using hi, ?_⟩
      rw [hre]
      have hc : (comp.drop 1).getD i 0 = comp.getD (i + 1) 0 := by
        cases comp <;> rfl
      have hd : rest.getD i dflt = (p :: rest).getD (i + 1) dflt := rfl
      rw [hc, hd]

theorem mkMetrics_ok (df : List Proc) (comp : List Int)
    (hcomp : ∀ i, i < df.length →
      (df.getD i dflt).arrival_time + (df.getD i dflt).burst_time ≤ comp.getD i 0) :
    ∀ r ∈ mkMetrics df comp,
      r.turnaround_time = r.completion_time - r.arrival_time ∧
      r.waiting_time = r.turnaround_time - r.burst_time ∧
      r.burst_time ≤ r.turnaround_time ∧ 0 ≤ r.waiting_time := by
  intro r hr
  obtain ⟨i, hi, rfl⟩ := mkMetrics_mem df r comp hr
  have := hcomp i hi
  refine ⟨rfl, ?_, ?_, ?_⟩ <;> dsimp only <;> omega

theorem sjf_idle_step (df : List Proc)
    (t : Int) (completed : Nat) (isC : List Bool) (comp : List Int) (sched : List Segment)
    (hInv : SjfInv df t completed isC comp sched)
    (hne : completed ≠ df.length)
    (hsel : sjfSelect df t isC = none) :
    ∃ j, nextArrivalIdx df isC = some j ∧ j < df.length ∧
      t < (df.getD j dflt).arrival_time ∧
      SjfInv df ((df.getD j dflt).arrival_time) completed isC comp
        (sched ++ [⟨SegId.Idle, t, (df.getD j dflt).arrival_time⟩]) ∧
      ∃ i2, sjfSelect df ((df.getD j dflt).arrival_time) isC = some i2 := by
  have hcnt : isC.count true ≠ isC.length := by
    rw [← hInv.cnt, hInv.lenC]
    exact hne
  obtain ⟨k, hk, hkC⟩ := count_true_lt isC hcnt
  have hkn : k < df.length := by rw [← hInv.lenC]; exact hk
  obtain ⟨j, hj⟩ := scanMinIdx_isSome (fun i => !(isC.getD i false))
    (fun i => (df.getD i dflt).arrival_time) df.length k hkn
    (by show (!isC.getD k false) = true; rw [hkC]; rfl)
  obtain ⟨hjn, hjne, _, _⟩ := scanMinIdx_some _ _ _ _ hj
  have hjC : isC.getD j false = false := by simpa using hjne
  have hjgt : t < (df.getD j dflt).arrival_time := by
    have hall := (scanMinIdx_none _ _ _).mp hsel j hjn
    unfold eligibleB at hall
    simp only [Bool.and_eq_false_iff, decide_eq_false_iff_not, not_le] at hall
    rcases hall with h | h
    · exact h
    · rw [Bool.not_eq_false'] at h
      rw [h] at hjC
      cases hjC
  refine ⟨j, hj, hjn, hjgt, ?_, ?_⟩
  · refine
      { lenC := hInv.lenC, lenK := hInv.lenK, cnt := hInv.cnt
        tnn := by have := hInv.tnn; omega
        done := hInv.done
        chain := ?_, cend := ?_, ptime := ?_ }
    · rw [chainFrom_append, hInv.cend, hInv.chain, chainFrom_single]
      simp only [Bool.true_and, Bool.and_eq_true, decide_eq_true_eq]
      exact ⟨trivial, hjgt⟩
    · rw [chainEnd_append, hInv.cend, chainEnd_single]
    · intro i hi
      rw [pidTime_append, pidTime_single, if_neg (by simp), hInv.ptime i hi]
      ring
  · exact scanMinIdx_isSome _ _ df.length j hjn
      (by unfold eligibleB; rw [hjC]; simp)

theorem sjfLoop_spec (df : List Proc)
    (hv : ∀ p ∈ df, 0 ≤ p.arrival_time ∧ 1 ≤ p.burst_time)
    (hnd : (df.map Proc.pid).Nodup) :
    ∀ fuel t completed isC comp sched,
      SjfInv df t completed isC comp sched →
      2 * (df.length - completed) < fuel →
      ∃ sched2 comp2,
        sjfLoop df fuel t completed isC comp sched = some (sched2, comp2) ∧
        chainFrom 0 sched2 = true ∧
        comp2.length = df.length ∧
        ∀ i, i < df.length →
          pidTime (df.getD i dflt).pid sched2 = (df.getD i dflt).burst_time ∧
          (df.getD i dflt).arrival_time + (df.getD i dflt).burst_time ≤ comp2.getD i 0 := by
  intro fuel
  induction fuel using Nat.strong_induction_on with
  | _ fuel ih =>
    intro t completed isC comp sched hInv hfuel
    by_cases hdone : completed = df.length
    · have hcnt : isC.count true = isC.length := by
        rw [← hInv.cnt, hdone, hInv.lenC]
      have hall : ∀ i, i < df.length → isC.getD i false = true := by
        intro i hi
        exact all_true_of_count isC hcnt i (by rw [hInv.lenC]; exact hi)
      refine ⟨sched, comp, ?_, hInv.chain, hInv.lenK, ?_⟩
      · cases fuel with
        | zero => simp [sjfLoop, hdone]
        | succ fuel => simp [sjfLoop, hdone]
      · intro i hi
        refine ⟨?_, hInv.done i hi (hall i hi)⟩
        have hp := hInv.ptime i hi
        rw [if_pos (hall i hi)] at hp
        exact hp
    · have hle : completed ≤ df.length := by
        rw [hInv.cnt, ← hInv.lenC]
        exact count_true_le isC
      have hlt : completed < df.length := by omega
      cases fuel with
      | zero => omega
      | succ fuel' =>
        rcases hsel : sjfSelect df t isC with _ | i
        · obtain ⟨j, hj, hjn, hjgt, hInv2, i2, hsel2⟩ :=
            sjf_idle_step df t completed isC comp sched hInv hdone hsel
          have hred : sjfLoop df (fuel' + 1) t completed isC comp sched =
              sjfLoop df fuel' ((df.getD j dflt).arrival_time) completed isC comp
                (sched ++ [⟨SegId.Idle, t, (df.getD j dflt).arrival_time⟩]) := by
            simp [sjfLoop, hdone, hsel, hj]
          obtain ⟨fuel'', rfl⟩ : ∃ k, fuel' = k + 1 := ⟨fuel' - 1, by omega⟩
          obtain ⟨hi2n, hInv3⟩ := sjf_select_step df hv hnd _ completed isC comp _ i2 hInv2 hsel2
          have hred2 : sjfLoop df (fuel'' + 1) ((df.getD j dflt).arrival_time) completed isC comp
              (sched ++ [⟨SegId.Idle, t, (df.getD j dflt).arrival_time⟩]) =
              sjfLoop df fuel''
                ((df.getD j dflt).arrival_time + (df.getD i2 dflt).burst_time) (completed + 1)
                (isC.set i2 true)
                (comp.set i2 ((df.getD j dflt).arrival_time + (df.getD i2 dflt).burst_time))
                ((sched ++ [⟨SegId.Idle, t, (df.getD j dflt).arrival_time⟩]) ++
                  [⟨SegId.P (df.getD i2 dflt).pid, (df.getD j dflt).arrival_time,
                    (df.getD j dflt).arrival_time + (df.getD i2 dflt).burst_time⟩]) := by
            conv_lhs => rw [sjfLoop]
            rw [if_neg hdone, hsel2]
          rw [hred, hred2]
          exact ih fuel'' (by omega) _ _ _ _ _ hInv3 (by omega)
        · have hred : sjfLoop df (fuel' + 1) t completed isC comp sched =
              sjfLoop df fuel' (t + (df.getD i dflt).burst_time) (completed + 1)
                (isC.set i true) (comp.set i (t + (df.getD i dflt).burst_time))
                (sched ++ [⟨SegId.P (df.getD i dflt).pid, t,
                  t + (df.getD i dflt).burst_time⟩]) := by
            simp [sjfLoop, hdone, hsel]
          rw [hred]
          obtain ⟨hin, hInv2⟩ := sjf_select_step df hv hnd t completed isC comp sched i hInv hsel
          exact ih fuel' (by omega) _ _ _ _ _ hInv2 (by omega)

theorem sjf_run_spec (ps : List Proc) (hv : ValidInput ps) :
    ∃ sched m, sjf ps = some (sched, m) ∧
      chainFrom 0 sched = true ∧
      (∀ p ∈ ps, pidTime p.pid sched = p.burst_time) ∧
      (∀ r ∈ m, r.turnaround_time = r.completion_time - r.arrival_time ∧
        r.waiting_time = r.turnaround_time - r.burst_time ∧
        r.burst_time ≤ r.turnaround_time ∧ 0 ≤ r.waiting_time) ∧
      m.map rowKey = ps.map procKey ∧
      (ps ≠ [] → sched ≠ []) := by
  obtain ⟨hvv, hnd⟩ := hv
  have hInv0 : SjfInv ps 0 0 (List.replicate ps.length false)
      (List.replicate ps.length 0) [] := by
    refine
      { lenC := List.length_replicate ps.length false
        lenK := List.length_replicate ps.length 0
        cnt := ?_, tnn := le_refl 0
        done := ?_, chain := rfl, cend := rfl, ptime := ?_ }
    · symm
      rw [List.count_eq_zero]
      intro hmem
      exact (Bool.false_ne_true (List.eq_of_mem_replicate hmem).symm).elim
    · intro i hi hC
      rw [getD_replicate_self false ps.length i] at hC
      cases hC
    · intro i hi
      rw [getD_replicate_self false ps.length i]
      simp [pidTime]
  obtain ⟨sched2, comp2, hres, hchain, hlen, hfacts⟩ :=
    sjfLoop_spec ps hvv hnd (2 * ps.length + 1) 0 0 (List.replicate ps.length false)
      (List.replicate ps.length 0) [] hInv0 (by omega)
  refine ⟨sched2, mkMetrics ps comp2, ?_, hchain, ?_, ?_, mkMetrics_rowKey ps comp2, ?_⟩
  · unfold sjf
    rw [hres]
  · intro p hp
    obtain ⟨i, hi, rfl⟩ := (mem_iff_getD ps p).mp hp
    exact (hfacts i hi).1
  · exact mkMetrics_ok ps comp2 fun i hi => (hfacts i hi).2
  · intro hne hnil
    obtain ⟨p, hp⟩ := List.exists_mem_of_ne_nil ps hne
    obtain ⟨i, hi, rfl⟩ := (mem_iff_getD ps p).mp hp
    have h1 := (hfacts i hi).1
    have hb := (hvv _ (getD_mem ps i hi)).2
    rw [hnil] at h1
    rw [pidTime_nil] at h1
    omega

/-! ### Round Robin (src/scheduling_algorithms.py lines 156-258) -/

/-- Admission test of the ready-queue fill loops (lines 210-212 and 237-239):
arrived, positive remaining burst, not already queued (against the queue as it
grows), and distinct from the excluded just-executed index (`excl = some i`
for the post-slice loop of line 238, `excl = none` for the idle-branch loop of
line 211, whose condition has no `j != i` conjunct). -/
def rrTest (df : List Proc) (t : Int) (rem : List Int) (excl : Option Nat) (q : List Nat)
    (j : Nat) : Bool :=
  decide ((df.getD j dflt).arrival_time ≤ t) && decide (0 < rem.getD j 0) &&
    !(q.contains j) && !(excl == some j)

/-- The `for i in range(n): if ...: ready_queue.append(i)` loops. -/
def rrEnqueue (df : List Proc) (t : Int) (rem : List Int) (excl : Option Nat)
    (q : List Nat) : List Nat :=
  (List.range df.length).foldl
    (fun q j => if rrTest df t rem excl q j then q ++ [j] else q) q

/-- The else-branch slice step of round_robin (lines 217-246): pop the head i,
run it for min(time_quantum, remaining), admit arrivals, then re-enqueue i or
record its completion.  Returns (new clock, new queue, new remaining, new
completion list, new schedule). -/
def rrSlice (df : List Proc) (tq : Int) (t : Int) (i : Nat) (q : List Nat) (rem : List Int)
    (comp : List Int) (sched : List Segment) :
    Int × List Nat × List Int × List Int × List Segment :=
  (t + min tq (rem.getD i 0),
    (if 0 < (rem.set i (rem.getD i 0 - min tq (rem.getD i 0))).getD i 0 then
      rrEnqueue df (t + min tq (rem.getD i 0)) (rem.set i (rem.getD i 0 - min tq (rem.getD i 0)))
        (some i) q ++ [i]
    else
      rrEnqueue df (t + min tq (rem.getD i 0)) (rem.set i (rem.getD i 0 - min tq (rem.getD i 0)))
        (some i) q),
    rem.set i (rem.getD i 0 - min tq (rem.getD i 0)),
    (if 0 < (rem.set i (rem.getD i 0 - min tq (rem.getD i 0))).getD i 0 then comp
      else comp.set i (t + min tq (rem.getD i 0))),
    sched ++ [⟨SegId.P (df.getD i dflt).pid, t, t + min tq (rem.getD i 0)⟩])

/-- The `while True` loop of round_robin (lines 190-246), fuel-indexed.
When the queue is empty: terminate if no remaining work, else idle-skip to the
next arrival (minimum arrival among processes with remaining burst, lines
195-198) and admit the arrivals.  Otherwise run a slice. -/
def rrLoop (df : List Proc) (tq : Int) : Nat → Int → List Nat → List Int → List Int →
    List Segment → Option (List Segment × List Int)
  | 0, _, _, _, _, _ => none
  | fuel + 1, t, q, rem, comp, sched =>
    match q with
    | [] =>
      if 0 < rem.sum then
        match scanMinIdx (fun i => decide (0 < rem.getD i 0))
            (fun i => (df.getD i dflt).arrival_time) (List.range df.length) with
        | none => none
        | some j =>
          rrLoop df tq fuel ((df.getD j dflt).arrival_time)
            (rrEnqueue df ((df.getD j dflt).arrival_time) rem none []) rem comp
            (sched ++ [⟨SegId.Idle, t, (df.getD j dflt).arrival_time⟩])
      else some (sched, comp)
    | i :: q' =>
      match rrSlice df tq t i q' rem comp sched with
      | (t2, q2, rem2, comp2, sched2) => rrLoop df tq fuel t2 q2 rem2 comp2 sched2

/-- Sum of all burst times; bounds the total work of a run. -/
def sumBurst (ps : List Proc) : Int := (ps.map Proc.burst_time).sum

/-- Fuel bound for round_robin, proved sufficient for valid inputs with
time_quantum ≥ 1. -/
def rrFuel (ps : List Proc) : Nat := 2 * (sumBurst ps).toNat + 2

/-- Round Robin (lines 156-258): seed the queue with the processes that
arrived at time 0 (lines 185-187), run the loop, then derive the metrics. -/
def round_robin (ps : List Proc) (tq : Int) : Option (List Segment × List MetricsRow) :=
  match rrLoop ps tq (rrFuel ps) 0
      ((List.range ps.length).filter fun i => decide ((ps.getD i dflt).arrival_time ≤ 0))
      (ps.map Proc.burst_time) (List.replicate ps.length 0) [] with
  | none => none
  | some (sched, comp) => some (sched, mkMetrics ps comp)

theorem rrEnqueue_eq_filter (df : List Proc) (t : Int) (rem : List Int) (excl : Option Nat) :
    ∀ l : List Nat, l.Nodup → ∀ q : List Nat,
      l.foldl (fun q j => if rrTest df t rem excl q j then q ++ [j] else q) q =
        q ++ l.filter (rrTest df t rem excl q) := by
  intro l
  induction l with
  | nil =>
    intro _ q
    simp
  | cons j l' ih =>
    intro hnd q
    have hnd' : l'.Nodup := (List.nodup_cons.mp hnd).2
    have hjl' : ¬ j ∈ l' := (List.nodup_cons.mp hnd).1
    by_cases hc : rrTest df t rem excl q j = true
    · rw [List.foldl_cons, if_pos hc, ih hnd' (q ++ [j])]
      have hfe : l'.filter (rrTest df t rem excl (q ++ [j])) =
          l'.filter (rrTest df t rem excl q) := by
        apply List.filter_congr
        intro k hk
        have hkj : k ≠ j := fun he => hjl' (he ▸ hk)
        unfold rrTest
        have hco : ((q ++ [j]).contains k) = (q.contains k) := by
          simp [hkj]
        rw [hco]
      have hfc : List.filter (rrTest df t rem excl q) (j :: l') =
          j :: List.filter (rrTest df t rem excl q) l' := by
        simp [List.filter_cons, hc]
      rw [hfe, hfc]
      simp
    · rw [List.foldl_cons, if_neg hc, ih hnd' q]
      have hfc : List.filter (rrTest df t rem excl q) (j :: l') =
          List.filter (rrTest df t rem excl q) l' := by
        simp [List.filter_cons, hc]
      rw [hfc]

theorem rrEnqueue_spec (df : List Proc) (t : Int) (rem : List Int) (excl : Option Nat)
    (q : List Nat) :
    rrEnqueue df t rem excl q = q ++ (List.range df.length).filter (rrTest df t rem excl q) :=
  rrEnqueue_eq_filter df t rem excl (List.range df.length) (List.nodup_range df.length) q

theorem rrEnqueue_mem (df : List Proc) (t : Int) (rem : List Int) (excl : Option Nat)
    (q : List Nat) (j : Nat) :
    j ∈ rrEnqueue df t rem excl q ↔
      j ∈ q ∨ (j < df.length ∧ rrTest df t rem excl q j = true) := by
  rw [rrEnqueue_spec]
  simp [List.mem_filter, List.mem_range]

theorem rrEnqueue_nodup (df : List Proc) (t : Int) (rem : List Int) (excl : Option Nat)
    (q : List Nat) (hq : q.Nodup) : (rrEnqueue df t rem excl q).Nodup := by
  rw [rrEnqueue_spec]
  apply List.Nodup.append hq
  · exact List.Nodup.filter _ (List.nodup_range df.length)
  · intro j hjq hjf
    have := (List.mem_filter.mp hjf).2
    unfold rrTest at this
    simp only [Bool.and_eq_true, Bool.not_eq_true'] at this
    have hcontains := this.1.2
    simp at hcontains
    exact hcontains hjq

theorem sum_nonneg_getD (l : List Int) (h : ∀ i, i < l.length → 0 ≤ l.getD i 0) :
    0 ≤ l.sum := by
  induction l with
  | nil => simp
  | cons a r ih =>
    have ha : 0 ≤ a := h 0 (by simp)
    have hr : 0 ≤ r.sum := ih fun i hi => h (i + 1) (by simpa using hi)
    simp only [List.sum_cons]
    omega

/-- Loop invariant of round_robin.  `qful` is the key completeness fact: every
arrived process with remaining work is in the ready queue; `prog` records
that the executed time of a started process fits below the clock. -/
structure RrInv (df : List Proc) (t : Int) (q : List Nat) (rem : List Int)
    (comp : List Int) (sched : List Segment) : Prop where
  lenR : rem.length = df.length
  lenK : comp.length = df.length
  tnn : 0 ≤ t
  qlt : ∀ i ∈ q, i < df.length
  qpos : ∀ i ∈ q, 0 < rem.getD i 0
  qarr : ∀ i ∈ q, (df.getD i dflt).arrival_time ≤ t
  qnd : q.Nodup
  qful : ∀ i, i < df.length → 0 < rem.getD i 0 → (df.getD i dflt).arrival_time ≤ t → i ∈ q
  rnn : ∀ i, i < df.length → 0 ≤ rem.getD i 0
  rle : ∀ i, i < df.length → rem.getD i 0 ≤ (df.getD i dflt).burst_time
  prog : ∀ i, i < df.length → rem.getD i 0 < (df.getD i dflt).burst_time →
    (df.getD i dflt).arrival_time + ((df.getD i dflt).burst_time - rem.getD i 0) ≤ t
  compDone : ∀ i, i < df.length → rem.getD i 0 = 0 →
    (df.getD i dflt).arrival_time + (df.getD i dflt).burst_time ≤ comp.getD i 0
  chain : chainFrom 0 sched = true
  cend : chainEnd 0 sched = t
  ptime : ∀ i, i < df.length →
    pidTime (df.getD i dflt).pid sched = (df.getD i dflt).burst_time - rem.getD i 0

theorem rr_slice_step (df : List Proc) (tq : Int)
    (hv : ∀ p ∈ df, 0 ≤ p.arrival_time ∧ 1 ≤ p.burst_time)
    (hnd : (df.map Proc.pid).Nodup) (htq : 1 ≤ tq)
    (t : Int) (i : Nat) (q' : List Nat) (rem comp : List Int) (sched : List Segment)
    (hInv : RrInv df t (i :: q') rem comp sched) :
    ∀ t2 q2 rem2 comp2 sched2,
      rrSlice df tq t i q' rem comp sched = (t2, q2, rem2, comp2, sched2) →
      RrInv df t2 q2 rem2 comp2 sched2 ∧ rem2.sum + 1 ≤ rem.sum := by
  intro t2 q2 rem2 comp2 sched2 he
  have hin : i < df.length := hInv.qlt i (List.mem_cons_self i q')
  have hb := hv _ (getD_mem df i hin)
  have hremi : 0 < rem.getD i 0 := hInv.qpos i (List.mem_cons_self i q')
  have harri : (df.getD i dflt).arrival_time ≤ t := hInv.qarr i (List.mem_cons_self i q')
  have hinR : i < rem.length := by rw [hInv.lenR]; exact hin
  have hinK : i < comp.length := by rw [hInv.lenK]; exact hin
  have hndq : q'.Nodup := (List.nodup_cons.mp hInv.qnd).2
  have hiq' : ¬ i ∈ q' := (List.nodup_cons.mp hInv.qnd).1
  have hex1 : 1 ≤ min tq (rem.getD i 0) := le_min htq hremi
  have hexle : min tq (rem.getD i 0) ≤ rem.getD i 0 := min_le_right _ _
  unfold rrSlice at he
  cases he
  set ex := min tq (rem.getD i 0) with hexdef
  set na := t + ex with hnadef
  set remN := rem.set i (rem.getD i 0 - ex) with hremNdef
  have hremNi : remN.getD i 0 = rem.getD i 0 - ex := getD_set_self rem i _ 0 hinR
  have hremNj : ∀ j, j ≠ i → remN.getD j 0 = rem.getD j 0 := by
    intro j hj
    exact getD_set_ne rem i j _ 0 (fun he2 => hj he2.symm)
  have hlenN : remN.length = df.length := by rw [hremNdef, List.length_set, hInv.lenR]
  have hsumN : remN.sum = rem.sum - ex := by
    rw [hremNdef, sum_set_int rem i _ hinR]
    ring
  set Q := rrEnqueue df na remN (some i) q' with hQdef
  have hQsub : ∀ j ∈ q', j ∈ Q := by
    intro j hj
    rw [hQdef, rrEnqueue_mem]
    exact Or.inl hj
  have hQmem : ∀ j, j ∈ Q →
      j ∈ q' ∨ (j < df.length ∧ rrTest df na remN (some i) q' j = true) := by
    intro j hj
    rw [hQdef, rrEnqueue_mem] at hj
    exact hj
  have hQin : ∀ j, j < df.length → j ≠ i → ¬ j ∈ q' →
      (df.getD j dflt).arrival_time ≤ na → 0 < remN.getD j 0 → j ∈ Q := by
    intro j hjn hji hjq hjarr hjpos
    rw [hQdef, rrEnqueue_mem]
    refine Or.inr ⟨hjn, ?_⟩
    unfold rrTest
    have h1 : q'.contains j = false := by
      simp only [List.contains, List.elem_eq_mem, decide_eq_false_iff_not]
      exact hjq
    have h2 : ((some i : Option Nat) == some j) = false := by
      have hij : ¬ i = j := fun he2 => hji he2.symm
      simp [hij]
    simp only [h1, h2, Bool.not_false, Bool.and_true]
    simp only [Bool.and_eq_true, decide_eq_true_eq]
    exact ⟨hjarr, hjpos⟩
  have hQnd : Q.Nodup := rrEnqueue_nodup df na remN (some i) q' hndq
  have hiQ : ¬ i ∈ Q := by
    intro hmem
    rcases hQmem i hmem with h | ⟨_, h⟩
    · exact hiq' h
    · unfold rrTest at h
      simp at h
  have htest : ∀ j, rrTest df na remN (some i) q' j = true →
      (df.getD j dflt).arrival_time ≤ na ∧ 0 < remN.getD j 0 ∧ ¬ j ∈ q' ∧ j ≠ i := by
    intro j h
    unfold rrTest at h
    simp only [Bool.and_eq_true, decide_eq_true_eq, Bool.not_eq_true'] at h
    obtain ⟨⟨⟨h1, h2⟩, h3⟩, h4⟩ := h
    refine ⟨h1, h2, ?_, ?_⟩
    · simp only [List.contains, List.elem_eq_mem, decide_eq_false_iff_not] at h3
      exact h3
    · intro he2
      subst he2
      simp at h4
  have hQlt : ∀ j ∈ Q, j < df.length := by
    intro j hj
    rcases hQmem j hj with h | ⟨h, _⟩
    · exact hInv.qlt j (List.mem_cons_of_mem i h)
    · exact h
  have hQpos : ∀ j ∈ Q, 0 < remN.getD j 0 := by
    intro j hj
    rcases hQmem j hj with h | ⟨_, h⟩
    · have hji : j ≠ i := fun he2 => hiq' (he2 ▸ h)
      rw [hremNj j hji]
      exact hInv.qpos j (List.mem_cons_of_mem i h)
    · exact (htest j h).2.1
  have hQarr : ∀ j ∈ Q, (df.getD j dflt).arrival_time ≤ na := by
    intro j hj
    rcases hQmem j hj with h | ⟨_, h⟩
    · have := hInv.qarr j (List.mem_cons_of_mem i h)
      omega
    · exact (htest j h).1
  have hprogN : ∀ j, j < df.length → remN.getD j 0 < (df.getD j dflt).burst_time →
      (df.getD j dflt).arrival_time + ((df.getD j dflt).burst_time - remN.getD j 0) ≤ na := by
    intro j hjn hjlt
    by_cases hji : j = i
    · subst hji
      rw [hremNi] at hjlt ⊢
      have hrle := hInv.rle j hjn
      rcases lt_or_eq_of_le hrle with hlt | heq
      · have := hInv.prog j hjn hlt
        omega
      · omega
    · rw [hremNj j hji] at hjlt ⊢
      have := hInv.prog j hjn hjlt
      omega
  have hchainN : chainFrom 0 (sched ++ [⟨SegId.P (df.getD i dflt).pid, t, na⟩]) = true := by
    rw [chainFrom_append, hInv.cend, hInv.chain, chainFrom_single]
    simp only [Bool.true_and, Bool.and_eq_true, decide_eq_true_eq]
    exact ⟨trivial, by omega⟩
  have hcendN : chainEnd 0 (sched ++ [⟨SegId.P (df.getD i dflt).pid, t, na⟩]) = na := by
    rw [chainEnd_append, hInv.cend, chainEnd_single]
  have hptimeN : ∀ j, j < df.length →
      pidTime (df.getD j dflt).pid (sched ++ [⟨SegId.P (df.getD i dflt).pid, t, na⟩]) =
        (df.getD j dflt).burst_time - remN.getD j 0 := by
    intro j hjn
    rw [pidTime_append, pidTime_single]
    by_cases hji : j = i
    · subst hji
      rw [if_pos rfl, hInv.ptime j hjn, hremNi]
      ring
    · have hpne : SegId.P (df.getD i dflt).pid ≠ SegId.P (df.getD j dflt).pid := by
        intro he2
        exact pid_injective df hnd i j hin hjn (fun he3 => hji he3.symm) (by injection he2)
      rw [if_neg hpne, hInv.ptime j hjn, hremNj j hji]
      ring
  constructor
  · by_cases hif : 0 < remN.getD i 0
    · rw [if_pos hif, if_pos hif]
      refine
        { lenR := hlenN, lenK := hInv.lenK
          tnn := by have := hInv.tnn; omega
          qlt := ?_, qpos := ?_, qarr := ?_, qnd := ?_, qful := ?_
          rnn := ?_, rle := ?_, prog := hprogN, compDone := ?_
          chain := hchainN, cend := hcendN, ptime := hptimeN }
      · intro j hj
        rcases List.mem_append.mp hj with h | h
        · exact hQlt j h
        · rw [List.mem_singleton] at h
          subst h
          exact hin
      · intro j hj
        rcases List.mem_append.mp hj with h | h
        · exact hQpos j h
        · rw [List.mem_singleton] at h
          subst h
          exact hif
      · intro j hj
        rcases List.mem_append.mp hj with h | h
        · exact hQarr j h
        · rw [List.mem_singleton] at h
          subst h
          omega
      · rw [List.nodup_append]
        refine ⟨hQnd, List.nodup_singleton i, ?_⟩
        intro j hj hj2
        rw [List.mem_singleton] at hj2
        subst hj2
        exact hiQ hj
      · intro j hjn hjpos hjarr
        by_cases hji : j = i
        · subst hji
          exact List.mem_append.mpr (Or.inr (List.mem_singleton.mpr rfl))
        · by_cases hjq : j ∈ q'
          · exact List.mem_append.mpr (Or.inl (hQsub j hjq))
          · exact List.mem_append.mpr (Or.inl (hQin j hjn hji hjq hjarr hjpos))
      · intro j hjn
        by_cases hji : j = i
        · subst hji
          rw [hremNi]
          omega
        · rw [hremNj j hji]
          exact hInv.rnn j hjn
      · intro j hjn
        by_cases hji : j = i
        · subst hji
          rw [hremNi]
          have := hInv.rle j hjn
          omega
        · rw [hremNj j hji]
          exact hInv.rle j hjn
      · intro j hjn hj0
        by_cases hji : j = i
        · subst hji
          rw [hremNi] at hj0
          omega
        · rw [hremNj j hji] at hj0
          exact hInv.compDone j hjn hj0
    · rw [if_neg hif, if_neg hif]
      have hri0 : remN.getD i 0 = 0 := by
        rw [hremNi]
        omega
      refine
        { lenR := hlenN, lenK := by rw [List.length_set, hInv.lenK]
          tnn := by have := hInv.tnn; omega
          qlt := hQlt, qpos := hQpos, qarr := hQarr, qnd := hQnd, qful := ?_
          rnn := ?_, rle := ?_, prog := hprogN, compDone := ?_
          chain := hchainN, cend := hcendN, ptime := hptimeN }
      · intro j hjn hjpos hjarr
        by_cases hji : j = i
        · subst hji
          rw [hri0] at hjpos
          omega
        · by_cases hjq : j ∈ q'
          · exact hQsub j hjq
          · exact hQin j hjn hji hjq hjarr hjpos
      · intro j hjn
        by_cases hji : j = i
        · subst hji
          rw [hremNi]
          omega
        · rw [hremNj j hji]
          exact hInv.rnn j hjn
      · intro j hjn
        by_cases hji : j = i
        · subst hji
          rw [hremNi]
          have := hInv.rle j hjn
          omega
        · rw [hremNj j hji]
          exact hInv.rle j hjn
      · intro j hjn hj0
        by_cases hji : j = i
        · subst hji
          rw [getD_set_self comp j na 0 hinK]
          have hpg := hprogN j hjn (by rw [hri0]; omega)
          rw [hri0] at hpg
          omega
        · rw [getD_set_ne comp i j na 0 (fun he2 => hji he2.symm)]
          rw [hremNj j hji] at hj0
          exact hInv.compDone j hjn hj0
  · omega

theorem rr_idle_step (df : List Proc) (t : Int) (rem comp : List Int) (sched : List Segment)
    (hInv : RrInv df t [] rem comp sched) (hsum : 0 < rem.sum) :
    ∃ j, scanMinIdx (fun i => decide (0 < rem.getD i 0))
        (fun i => (df.getD i dflt).arrival_time) (List.range df.length) = some j ∧
      j < df.length ∧ t < (df.getD j dflt).arrival_time ∧
      RrInv df ((df.getD j dflt).arrival_time)
        (rrEnqueue df ((df.getD j dflt).arrival_time) rem none []) rem comp
        (sched ++ [⟨SegId.Idle, t, (df.getD j dflt).arrival_time⟩]) ∧
      j ∈ rrEnqueue df ((df.getD j dflt).arrival_time) rem none [] := by
  obtain ⟨k, hkR, hkpos⟩ := sum_pos_exists rem hsum
  have hkn : k < df.length := by rw [← hInv.lenR]; exact hkR
  obtain ⟨j, hj⟩ := scanMinIdx_isSome (fun i => decide (0 < rem.getD i 0))
    (fun i => (df.getD i dflt).arrival_time) df.length k hkn
    (by show decide (0 < rem.getD k 0) = true; exact decide_eq_true hkpos)
  obtain ⟨hjn, hje, hjmin, _⟩ := scanMinIdx_some _ _ _ _ hj
  have hjpos : 0 < rem.getD j 0 := by simpa using hje
  have hjgt : t < (df.getD j dflt).arrival_time := by
    by_contra hle
    push_neg at hle
    exact List.not_mem_nil j (hInv.qful j hjn hjpos hle)
  have htest : ∀ j', rrTest df ((df.getD j dflt).arrival_time) rem none [] j' = true ↔
      ((df.getD j' dflt).arrival_time ≤ (df.getD j dflt).arrival_time ∧
        0 < rem.getD j' 0) := by
    intro j'
    unfold rrTest
    constructor
    · intro h
      simp only [Bool.and_eq_true, decide_eq_true_eq] at h
      exact ⟨h.1.1.1, h.1.1.2⟩
    · intro ⟨h1, h2⟩
      simp only [List.contains_nil, Bool.not_false, Bool.and_true]
      simp only [Bool.and_eq_true, decide_eq_true_eq]
      exact ⟨⟨h1, h2⟩, rfl⟩
  have hmem : ∀ j', j' ∈ rrEnqueue df ((df.getD j dflt).arrival_time) rem none [] ↔
      (j' < df.length ∧ ((df.getD j' dflt).arrival_time ≤ (df.getD j dflt).arrival_time ∧
        0 < rem.getD j' 0)) := by
    intro j'
    rw [rrEnqueue_mem]
    simp only [List.not_mem_nil, false_or]
    constructor
    · intro ⟨h1, h2⟩
      exact ⟨h1, (htest j').mp h2⟩
    · intro ⟨h1, h2⟩
      exact ⟨h1, (htest j').mpr h2⟩
  refine ⟨j, hj, hjn, hjgt, ?_, ?_⟩
  · refine
      { lenR := hInv.lenR, lenK := hInv.lenK
        tnn := by have := hInv.tnn; omega
        qlt := ?_, qpos := ?_, qarr := ?_
        qnd := rrEnqueue_nodup df _ rem none [] (List.nodup_nil)
        qful := ?_
        rnn := hInv.rnn, rle := hInv.rle, prog := ?_, compDone := hInv.compDone
        chain := ?_, cend := ?_, ptime := ?_ }
    · intro j' hj'
      exact ((hmem j').mp hj').1
    · intro j' hj'
      exact ((hmem j').mp hj').2.2
    · intro j' hj'
      exact ((hmem j').mp hj').2.1
    · intro j' hj'n hj'pos hj'arr
      exact (hmem j').mpr ⟨hj'n, hj'arr, hj'pos⟩
    · intro j' hj'n hj'lt
      have := hInv.prog j' hj'n hj'lt
      omega
    · rw [chainFrom_append, hInv.cend, hInv.chain, chainFrom_single]
      simp only [Bool.true_and, Bool.and_eq_true, decide_eq_true_eq]
      exact ⟨trivial, hjgt⟩
    · rw [chainEnd_append, hInv.cend, chainEnd_single]
    · intro j' hj'n
      rw [pidTime_append, pidTime_single, if_neg (by simp), hInv.ptime j' hj'n]
      ring
  · exact (hmem j).mpr ⟨hjn, le_refl _, hjpos⟩

theorem rrLoop_spec (df : List Proc) (tq : Int)
    (hv : ∀ p ∈ df, 0 ≤ p.arrival_time ∧ 1 ≤ p.burst_time)
    (hnd : (df.map Proc.pid).Nodup) (htq : 1 ≤ tq) :
    ∀ fuel t q rem comp sched,
      RrInv df t q rem comp sched →
      2 * rem.sum.toNat + 1 < fuel →
      ∃ sched2 comp2,
        rrLoop df tq fuel t q rem comp sched = some (sched2, comp2) ∧
        chainFrom 0 sched2 = true ∧
        comp2.length = df.length ∧
        ∀ i, i < df.length →
          pidTime (df.getD i dflt).pid sched2 = (df.getD i dflt).burst_time ∧
          (df.getD i dflt).arrival_time + (df.getD i dflt).burst_time ≤ comp2.getD i 0 := by
  intro fuel
  induction fuel using Nat.strong_induction_on with
  | _ fuel ih =>
    intro t q rem comp sched hInv hfuel
    obtain ⟨fuel', rfl⟩ : ∃ k, fuel = k + 1 := ⟨fuel - 1, by omega⟩
    cases q with
    | nil =>
      by_cases hsum : 0 < rem.sum
      · obtain ⟨j, hj, hjn, hjgt, hInv2, hjmem⟩ := rr_idle_step df t rem comp sched hInv hsum
        have hred : rrLoop df tq (fuel' + 1) t [] rem comp sched =
            rrLoop df tq fuel' ((df.getD j dflt).arrival_time)
              (rrEnqueue df ((df.getD j dflt).arrival_time) rem none []) rem comp
              (sched ++ [⟨SegId.Idle, t, (df.getD j dflt).arrival_time⟩]) := by
          conv_lhs => rw [rrLoop]
          rw [if_pos hsum, hj]
        rw [hred]
        rcases hq2 : rrEnqueue df ((df.getD j dflt).arrival_time) rem none [] with _ | ⟨k, Q'⟩
        · rw [hq2] at hjmem
          exact absurd hjmem (List.not_mem_nil j)
        · rw [hq2] at hInv2
          have hsumt : 1 ≤ rem.sum.toNat := by omega
          obtain ⟨fuel'', rfl⟩ : ∃ m, fuel' = m + 1 := ⟨fuel' - 1, by omega⟩
          have hred2 : rrLoop df tq (fuel'' + 1) ((df.getD j dflt).arrival_time) (k :: Q')
              rem comp (sched ++ [⟨SegId.Idle, t, (df.getD j dflt).arrival_time⟩]) =
              (match rrSlice df tq ((df.getD j dflt).arrival_time) k Q' rem comp
                  (sched ++ [⟨SegId.Idle, t, (df.getD j dflt).arrival_time⟩]) with
                | (t2, q2, rem2, comp2, sched2) => rrLoop df tq fuel'' t2 q2 rem2 comp2 sched2) := by
            conv_lhs => rw [rrLoop]
          rcases hs : rrSlice df tq ((df.getD j dflt).arrival_time) k Q' rem comp
              (sched ++ [⟨SegId.Idle, t, (df.getD j dflt).arrival_time⟩]) with
            ⟨t2, q2, rem2, comp2, sched2⟩
          obtain ⟨hInv3, hdec⟩ :=
            rr_slice_step df tq hv hnd htq _ k Q' rem comp _ hInv2 t2 q2 rem2 comp2 sched2 hs
          have hnn : 0 ≤ rem2.sum := by
            apply sum_nonneg_getD
            intro i2 hi2
            exact hInv3.rnn i2 (by rw [← hInv3.lenR]; exact hi2)
          rw [hred2, hs]
          exact ih fuel'' (by omega) _ _ _ _ _ hInv3 (by omega)
      · have hred : rrLoop df tq (fuel' + 1) t [] rem comp sched = some (sched, comp) := by
          conv_lhs => rw [rrLoop]
          rw [if_neg hsum]
        have hall : ∀ i, i < df.length → rem.getD i 0 = 0 := by
          intro i hi
          have h1 := hInv.rnn i hi
          have h2 := getD_le_sum rem
            (fun i2 hi2 => hInv.rnn i2 (by rw [← hInv.lenR]; exact hi2)) i
            (by rw [hInv.lenR]; exact hi)
          omega
        refine ⟨sched, comp, hred, hInv.chain, hInv.lenK, ?_⟩
        intro i hi
        constructor
        · rw [hInv.ptime i hi, hall i hi]
          ring
        · exact hInv.compDone i hi (hall i hi)
    | cons i q' =>
      have hred : rrLoop df tq (fuel' + 1) t (i :: q') rem comp sched =
          (match rrSlice df tq t i q' rem comp sched with
            | (t2, q2, rem2, comp2, sched2) => rrLoop df tq fuel' t2 q2 rem2 comp2 sched2) := by
        conv_lhs => rw [rrLoop]
      rcases hs : rrSlice df tq t i q' rem comp sched with ⟨t2, q2, rem2, comp2, sched2⟩
      obtain ⟨hInv3, hdec⟩ :=
        rr_slice_step df tq hv hnd htq t i q' rem comp sched hInv t2 q2 rem2 comp2 sched2 hs
      have hnn : 0 ≤ rem2.sum := by
        apply sum_nonneg_getD
        intro i2 hi2
        exact hInv3.rnn i2 (by rw [← hInv3.lenR]; exact hi2)
      have hremnn : 0 ≤ rem.sum := by
        apply sum_nonneg_getD
        intro i2 hi2
        exact hInv.rnn i2 (by rw [← hInv.lenR]; exact hi2)
      rw [hred, hs]
      exact ih fuel' (by omega) _ _ _ _ _ hInv3 (by omega)

theorem rr_run_spec (ps : List Proc) (tq : Int) (hv : ValidInput ps) (htq : 1 ≤ tq) :
    ∃ sched m, round_robin ps tq = some (sched, m) ∧
      chainFrom 0 sched = true ∧
      (∀ p ∈ ps, pidTime p.pid sched = p.burst_time) ∧
      (∀ r ∈ m, r.turnaround_time = r.completion_time - r.arrival_time ∧
        r.waiting_time = r.turnaround_time - r.burst_time ∧
        r.burst_time ≤ r.turnaround_time ∧ 0 ≤ r.waiting_time) ∧
      m.map rowKey = ps.map procKey ∧
      (ps ≠ [] → sched ≠ []) := by
  obtain ⟨hvv, hnd⟩ := hv
  have hrem : ∀ i, i < ps.length → (ps.map Proc.burst_time).getD i 0 =
      (ps.getD i dflt).burst_time := fun i hi => getD_map_proc Proc.burst_time ps i hi
  have hburst : ∀ i, i < ps.length → 1 ≤ (ps.getD i dflt).burst_time :=
    fun i hi => (hvv _ (getD_mem ps i hi)).2
  have hInv0 : RrInv ps 0
      ((List.range ps.length).filter fun i => decide ((ps.getD i dflt).arrival_time ≤ 0))
      (ps.map Proc.burst_time) (List.replicate ps.length 0) [] := by
    refine
      { lenR := List.length_map ps Proc.burst_time
        lenK := List.length_replicate ps.length 0
        tnn := le_refl 0
        qlt := ?_, qpos := ?_, qarr := ?_
        qnd := List.Nodup.filter _ (List.nodup_range ps.length)
        qful := ?_, rnn := ?_, rle := ?_, prog := ?_, compDone := ?_
        chain := rfl, cend := rfl, ptime := ?_ }
    · intro i hi
      have := (List.mem_filter.mp hi).1
      simpa using this
    · intro i hi
      have h1 := (List.mem_filter.mp hi).1
      have hin : i < ps.length := by simpa using h1
      rw [hrem i hin]
      have := hburst i hin
      omega
    · intro i hi
      have := (List.mem_filter.mp hi).2
      simpa using this
    · intro i hin hpos harr
      rw [List.mem_filter]
      exact ⟨by simpa using hin, by simpa using harr⟩
    · intro i hin
      rw [hrem i hin]
      have := hburst i hin
      omega
    · intro i hin
      rw [hrem i hin]
    · intro i hin hlt
      rw [hrem i hin] at hlt
      omega
    · intro i hin h0
      rw [hrem i hin] at h0
      have := hburst i hin
      omega
    · intro i hin
      rw [pidTime_nil, hrem i hin]
      ring
  have hsum0 : (ps.map Proc.burst_time).sum = sumBurst ps := rfl
  obtain ⟨sched2, comp2, hres, hchain, hlen, hfacts⟩ :=
    rrLoop_spec ps tq hvv hnd htq (rrFuel ps) 0 _ _ _ [] hInv0
      (by unfold rrFuel; rw [hsum0]; omega)
  refine ⟨sched2, mkMetrics ps comp2, ?_, hchain, ?_, ?_, mkMetrics_rowKey ps comp2, ?_⟩
  · unfold round_robin
    rw [hres]
  · intro p hp
    obtain ⟨i, hi, rfl⟩ := (mem_iff_getD ps p).mp hp
    exact (hfacts i hi).1
  · exact mkMetrics_ok ps comp2 fun i hi => (hfacts i hi).2
  · intro hne hnil
    obtain ⟨p, hp⟩ := List.exists_mem_of_ne_nil ps hne
    obtain ⟨i, hi, rfl⟩ := (mem_iff_getD ps p).mp hp
    have h1 := (hfacts i hi).1
    have hb := (hvv _ (getD_mem ps i hi)).2
    rw [hnil, pidTime_nil] at h1
    omega

/-! ### Priority scheduling (src/scheduling_algorithms.py lines 261-377) -/

/-- Selection loop of priority_scheduling (lines 296-300): first index of
minimum priority among arrived, uncompleted processes (strict <, so ties keep
the lowest index). -/
def prioSelect (df : List Proc) (t : Int) (isC : List Bool) : Option Nat :=
  scanMinIdx (eligibleB df t isC) (fun i => (df.getD i dflt).priority)
    (List.range df.length)

/-- Next-future-arrival scan of the preemptive branch (lines 336-339): among
uncompleted processes other than the selected one whose arrival is strictly
after the clock, the index of minimum arrival (the source keeps only the
minimum value). -/
def prioNextIdx (df : List Proc) (t : Int) (isC : List Bool) (sel : Nat) : Option Nat :=
  scanMinIdx
    (fun i => !(isC.getD i false) && !(i == sel) &&
      decide (t < (df.getD i dflt).arrival_time))
    (fun i => (df.getD i dflt).arrival_time) (List.range df.length)

/-- Slice length of the preemptive branch (lines 341-342):
min(remaining, next_arrival - t), or the full remaining burst when no future
arrival exists. -/
def prioExec (df : List Proc) (t : Int) (isC : List Bool) (rem : List Int) (sel : Nat) : Int :=
  match prioNextIdx df t isC sel with
  | none => rem.getD sel 0
  | some j => min (rem.getD sel 0) ((df.getD j dflt).arrival_time - t)

/-- The preemptive slice (lines 334-365): run the selected process for
prioExec time units; extend the previous segment when the same process
continues (prev_process == selected_process, lines 344-353), else append a
new segment; on remaining burst 0 record completion (lines 359-363).
Returns (new clock, new completed count, new is_completed, new remaining, new
completion list, new schedule).  The getLast? = none fallback is unreachable:
prev == some sel implies a previously emitted segment. -/
def prioSlice (df : List Proc) (t : Int) (completed : Nat) (isC : List Bool)
    (rem comp : List Int) (prev : Option Nat) (sched : List Segment) (sel : Nat) :
    Int × Nat × List Bool × List Int × List Int × List Segment :=
  (t + prioExec df t isC rem sel,
    (if rem.getD sel 0 - prioExec df t isC rem sel = 0 then completed + 1 else completed),
    (if rem.getD sel 0 - prioExec df t isC rem sel = 0 then isC.set sel true else isC),
    rem.set sel (rem.getD sel 0 - prioExec df t isC rem sel),
    (if rem.getD sel 0 - prioExec df t isC rem sel = 0 then
      comp.set sel (t + prioExec df t isC rem sel)
    else comp),
    (if prev == some sel then
      match sched.getLast? with
      | some u => sched.dropLast ++ [⟨u.pid, u.start_time, t + prioExec df t isC rem sel⟩]
      | none => sched ++ [⟨SegId.P (df.getD sel dflt).pid, t, t + prioExec df t isC rem sel⟩]
    else sched ++ [⟨SegId.P (df.getD sel dflt).pid, t, t + prioExec df t isC rem sel⟩]))

/-- The while-loop of priority_scheduling (lines 291-365), fuel-indexed.
State: clock, completed count, is_completed, remaining bursts, completion
times, prev_process (none models the initial -1) and the schedule. -/
def prioLoop (df : List Proc) (preemptive : Bool) : Nat → Int → Nat → List Bool → List Int →
    List Int → Option Nat → List Segment → Option (List Segment × List Int)
  | 0, _, completed, _, _, comp, _, sched =>
    if completed = df.length then some (sched, comp) else none
  | fuel + 1, t, completed, isC, rem, comp, prev, sched =>
    if completed = df.length then some (sched, comp)
    else
      match prioSelect df t isC with
      | none =>
        match nextArrivalIdx df isC with
        | none => none
        | some j =>
          prioLoop df preemptive fuel ((df.getD j dflt).arrival_time) completed isC rem comp
            prev (sched ++ [⟨SegId.Idle, t, (df.getD j dflt).arrival_time⟩])
      | some sel =>
        if preemptive = false then
          prioLoop df preemptive fuel (t + rem.getD sel 0) (completed + 1) (isC.set sel true)
            (rem.set sel 0) (comp.set sel (t + rem.getD sel 0)) prev
            (sched ++ [⟨SegId.P (df.getD sel dflt).pid, t, t + rem.getD sel 0⟩])
        else
          match prioSlice df t completed isC rem comp prev sched sel with
          | (t2, completed2, isC2, rem2, comp2, sched2) =>
            prioLoop df preemptive fuel t2 completed2 isC2 rem2 comp2 (some sel) sched2

/-- Fuel bound for priority_scheduling, proved sufficient for valid inputs. -/
def prioFuel (ps : List Proc) : Nat := 2 * (sumBurst ps).toNat + 2

/-- Priority scheduling (lines 261-377), preemptive or not. -/
def priority_scheduling (ps : List Proc) (preemptive : Bool) :
    Option (List Segment × List MetricsRow) :=
  match prioLoop ps preemptive (prioFuel ps) 0 0 (List.replicate ps.length false)
      (ps.map Proc.burst_time) (List.replicate ps.length 0) none [] with
  | none => none
  | some (sched, comp) => some (sched, mkMetrics ps comp)

/-- Loop invariant of priority_scheduling (both modes).  `prevSeg` supports
the segment-compaction branch: while the previously executed process is
unfinished, the schedule ends with its segment, ending at the clock. -/
structure PrioInv (df : List Proc) (preemptive : Bool) (t : Int) (completed : Nat)
    (isC : List Bool) (rem comp : List Int) (prev : Option Nat)
    (sched : List Segment) : Prop where
  lenC : isC.length = df.length
  lenR : rem.length = df.length
  lenK : comp.length = df.length
  cnt : completed = isC.count true
  tnn : 0 ≤ t
  remDone : ∀ i, i < df.length → isC.getD i false = true → rem.getD i 0 = 0
  remAct : ∀ i, i < df.length → isC.getD i false = false → 1 ≤ rem.getD i 0
  rle : ∀ i, i < df.length → rem.getD i 0 ≤ (df.getD i dflt).burst_time
  prog : ∀ i, i < df.length → rem.getD i 0 < (df.getD i dflt).burst_time →
    (df.getD i dflt).arrival_time + ((df.getD i dflt).burst_time - rem.getD i 0) ≤ t
  compDone : ∀ i, i < df.length → isC.getD i false = true →
    (df.getD i dflt).arrival_time + (df.getD i dflt).burst_time ≤ comp.getD i 0
  chain : chainFrom 0 sched = true
  cend : chainEnd 0 sched = t
  ptime : ∀ i, i < df.length →
    pidTime (df.getD i dflt).pid sched = (df.getD i dflt).burst_time - rem.getD i 0
  prevNP : preemptive = false → prev = none
  prevSeg : ∀ k, prev = some k → k < df.length ∧ (df.getD k dflt).arrival_time ≤ t ∧
    (isC.getD k false = false →
      ∃ s0 u, sched = s0 ++ [u] ∧ u.pid = SegId.P (df.getD k dflt).pid ∧ u.end_time = t)

theorem eligibleB_true (df : List Proc) (t : Int) (isC : List Bool) (i : Nat)
    (h : eligibleB df t isC i = true) :
    (df.getD i dflt).arrival_time ≤ t ∧ isC.getD i false = false := by
  unfold eligibleB at h
  simp only [Bool.and_eq_true, decide_eq_true_eq, Bool.not_eq_true'] at h
  exact h

theorem prioExec_bounds (df : List Proc) (t : Int) (isC : List Bool) (rem : List Int)
    (sel : Nat) (hrem : 1 ≤ rem.getD sel 0) :
    1 ≤ prioExec df t isC rem sel ∧ prioExec df t isC rem sel ≤ rem.getD sel 0 := by
  unfold prioExec
  rcases hn : prioNextIdx df t isC sel with _ | j
  · exact ⟨hrem, le_refl _⟩
  · obtain ⟨hjn, hje, _, _⟩ := scanMinIdx_some _ _ _ _ hn
    have hjt : t < (df.getD j dflt).arrival_time := by
      simp only [Bool.and_eq_true, decide_eq_true_eq] at hje
      exact hje.2
    constructor
    · apply le_min hrem
      omega
    · exact min_le_left _ _

theorem prio_np_step (df : List Proc)
    (hv : ∀ p ∈ df, 0 ≤ p.arrival_time ∧ 1 ≤ p.burst_time)
    (hnd : (df.map Proc.pid).Nodup)
    (t : Int) (completed : Nat) (isC : List Bool) (rem comp : List Int) (prev : Option Nat)
    (sched : List Segment)
    (hInv : PrioInv df false t completed isC rem comp prev sched)
    (hsel : prioSelect df t isC = some sel) :
    PrioInv df false (t + rem.getD sel 0) (completed + 1) (isC.set sel true)
      (rem.set sel 0) (comp.set sel (t + rem.getD sel 0)) prev
      (sched ++ [⟨SegId.P (df.getD sel dflt).pid, t, t + rem.getD sel 0⟩]) ∧
    (rem.set sel 0).sum + 1 ≤ rem.sum := by
  obtain ⟨hseln, hselig, _, _⟩ := scanMinIdx_some _ _ _ _ hsel
  obtain ⟨harr, hnC⟩ := eligibleB_true df t isC sel hselig
  have hb := hv _ (getD_mem df sel hseln)
  have hselR : sel < rem.length := by rw [hInv.lenR]; exact hseln
  have hselC : sel < isC.length := by rw [hInv.lenC]; exact hseln
  have hselK : sel < comp.length := by rw [hInv.lenK]; exact hseln
  have hrsel : 1 ≤ rem.getD sel 0 := hInv.remAct sel hseln hnC
  have hrle := hInv.rle sel hseln
  have hremi : (rem.set sel 0).getD sel 0 = 0 := getD_set_self rem sel 0 0 hselR
  have hremj : ∀ j, j ≠ sel → (rem.set sel 0).getD j 0 = rem.getD j 0 := by
    intro j hj
    exact getD_set_ne rem sel j 0 0 (fun he2 => hj he2.symm)
  constructor
  · refine
      { lenC := by rw [List.length_set, hInv.lenC]
        lenR := by rw [List.length_set, hInv.lenR]
        lenK := by rw [List.length_set, hInv.lenK]
        cnt := by rw [count_set_true isC sel hselC hnC, hInv.cnt]
        tnn := by have := hInv.tnn; omega
        remDone := ?_, remAct := ?_, rle := ?_, prog := ?_, compDone := ?_
        chain := ?_, cend := ?_, ptime := ?_
        prevNP := fun _ => hInv.prevNP rfl
        prevSeg := ?_ }
    · intro j hjn hjC
      by_cases hj : j = sel
      · subst hj
        exact hremi
      · rw [getD_set_ne isC sel j true false (fun he2 => hj he2.symm)] at hjC
        rw [hremj j hj]
        exact hInv.remDone j hjn hjC
    · intro j hjn hjC
      by_cases hj : j = sel
      · subst hj
        rw [getD_set_self isC j true false hselC] at hjC
        cases hjC
      · rw [getD_set_ne isC sel j true false (fun he2 => hj he2.symm)] at hjC
        rw [hremj j hj]
        exact hInv.remAct j hjn hjC
    · intro j hjn
      by_cases hj : j = sel
      · subst hj
        rw [hremi]
        omega
      · rw [hremj j hj]
        exact hInv.rle j hjn
    · intro j hjn hjlt
      by_cases hj : j = sel
      · subst hj
        rw [hremi] at hjlt ⊢
        rcases lt_or_eq_of_le hrle with h | h
        · have := hInv.prog j hjn h
          omega
        · omega
      · rw [hremj j hj] at hjlt ⊢
        have := hInv.prog j hjn hjlt
        omega
    · intro j hjn hjC
      by_cases hj : j = sel
      · subst hj
        rw [getD_set_self comp j _ 0 hselK]
        rcases lt_or_eq_of_le hrle with h | h
        · have := hInv.prog j hjn h
          omega
        · omega
      · rw [getD_set_ne isC sel j true false (fun he2 => hj he2.symm)] at hjC
        rw [getD_set_ne comp sel j _ 0 (fun he2 => hj he2.symm)]
        exact hInv.compDone j hjn hjC
    · rw [chainFrom_append, hInv.cend, hInv.chain, chainFrom_single]
      simp only [Bool.true_and, Bool.and_eq_true, decide_eq_true_eq]
      exact ⟨trivial, by omega⟩
    · rw [chainEnd_append, hInv.cend, chainEnd_single]
    · intro j hjn
      rw [pidTime_append, pidTime_single]
      by_cases hj : j = sel
      · subst hj
        rw [if_pos rfl, hInv.ptime j hjn, hremi]
        ring
      · have hpne : SegId.P (df.getD sel dflt).pid ≠ SegId.P (df.getD j dflt).pid := by
          intro he2
          exact pid_injective df hnd sel j hseln hjn (fun he3 => hj he3.symm) (by injection he2)
        rw [if_neg hpne, hInv.ptime j hjn, hremj j hj]
        ring
    · intro k hk
      rw [hInv.prevNP rfl] at hk
      cases hk
  · rw [sum_set_int rem sel 0 hselR]
    omega

theorem prio_p_step (df : List Proc)
    (hv : ∀ p ∈ df, 0 ≤ p.arrival_time ∧ 1 ≤ p.burst_time)
    (hnd : (df.map Proc.pid).Nodup)
    (t : Int) (completed : Nat) (isC : List Bool) (rem comp : List Int) (prev : Option Nat)
    (sched : List Segment) (sel : Nat)
    (hInv : PrioInv df true t completed isC rem comp prev sched)
    (hsel : prioSelect df t isC = some sel) :
    ∀ t2 completed2 isC2 rem2 comp2 sched2,
      prioSlice df t completed isC rem comp prev sched sel =
        (t2, completed2, isC2, rem2, comp2, sched2) →
      PrioInv df true t2 completed2 isC2 rem2 comp2 (some sel) sched2 ∧
      rem2.sum + 1 ≤ rem.sum := by
  intro t2 completed2 isC2 rem2 comp2 sched2 he
  obtain ⟨hseln, hselig, _, _⟩ := scanMinIdx_some _ _ _ _ hsel
  obtain ⟨harr, hnC⟩ := eligibleB_true df t isC sel hselig
  have hb := hv _ (getD_mem df sel hseln)
  have hselR : sel < rem.length := by rw [hInv.lenR]; exact hseln
  have hselC : sel < isC.length := by rw [hInv.lenC]; exact hseln
  have hselK : sel < comp.length := by rw [hInv.lenK]; exact hseln
  have hrsel : 1 ≤ rem.getD sel 0 := hInv.remAct sel hseln hnC
  have hrle := hInv.rle sel hseln
  obtain ⟨hex1, hexle⟩ := prioExec_bounds df t isC rem sel hrsel
  unfold prioSlice at he
  cases he
  set ex := prioExec df t isC rem sel with hexdef
  have hremNi : (rem.set sel (rem.getD sel 0 - ex)).getD sel 0 = rem.getD sel 0 - ex :=
    getD_set_self rem sel _ 0 hselR
  have hremNj : ∀ j, j ≠ sel →
      (rem.set sel (rem.getD sel 0 - ex)).getD j 0 = rem.getD j 0 := by
    intro j hj
    exact getD_set_ne rem sel j _ 0 (fun he2 => hj he2.symm)
  have hsumN : (rem.set sel (rem.getD sel 0 - ex)).sum = rem.sum - ex := by
    rw [sum_set_int rem sel _ hselR]
    ring
  have hS : chainFrom 0 (if prev == some sel then
        match sched.getLast? with
        | some u => sched.dropLast ++ [⟨u.pid, u.start_time, t + ex⟩]
        | none => sched ++ [⟨SegId.P (df.getD sel dflt).pid, t, t + ex⟩]
      else sched ++ [⟨SegId.P (df.getD sel dflt).pid, t, t + ex⟩]) = true ∧
      chainEnd 0 (if prev == some sel then
        match sched.getLast? with
        | some u => sched.dropLast ++ [⟨u.pid, u.start_time, t + ex⟩]
        | none => sched ++ [⟨SegId.P (df.getD sel dflt).pid, t, t + ex⟩]
      else sched ++ [⟨SegId.P (df.getD sel dflt).pid, t, t + ex⟩]) = t + ex ∧
      (∀ j, j < df.length → pidTime (df.getD j dflt).pid (if prev == some sel then
        match sched.getLast? with
        | some u => sched.dropLast ++ [⟨u.pid, u.start_time, t + ex⟩]
        | none => sched ++ [⟨SegId.P (df.getD sel dflt).pid, t, t + ex⟩]
      else sched ++ [⟨SegId.P (df.getD sel dflt).pid, t, t + ex⟩]) =
        (df.getD j dflt).burst_time - rem.getD j 0 + (if j = sel then ex else 0)) ∧
      (∃ s0 u, (if prev == some sel then
        match sched.getLast? with
        | some u => sched.dropLast ++ [⟨u.pid, u.start_time, t + ex⟩]
        | none => sched ++ [⟨SegId.P (df.getD sel dflt).pid, t, t + ex⟩]
      else sched ++ [⟨SegId.P (df.getD sel dflt).pid, t, t + ex⟩]) = s0 ++ [u] ∧
        u.pid = SegId.P (df.getD sel dflt).pid ∧ u.end_time = t + ex) := by
    by_cases hprev : (prev == some sel) = true
    · have hpeq : prev = some sel := by simpa using hprev
      obtain ⟨_, _, hseg⟩ := hInv.prevSeg sel hpeq
      obtain ⟨s0, u, hs, hupid, huend⟩ := hseg hnC
      have hch := hInv.chain
      rw [hs, chainFrom_append, chainFrom_single] at hch
      simp only [Bool.and_eq_true, decide_eq_true_eq] at hch
      obtain ⟨hch0, hustart, hupos⟩ := hch
      have hce := hInv.cend
      rw [hs, chainEnd_append, chainEnd_single] at hce
      rw [if_pos hprev, hs, List.getLast?_concat, List.dropLast_concat]
      refine ⟨?_, ?_, ?_, s0, ⟨u.pid, u.start_time, t + ex⟩, rfl, by simpa using hupid, rfl⟩
      · rw [chainFrom_append, chainFrom_single, hch0]
        simp only [Bool.true_and, Bool.and_eq_true, decide_eq_true_eq]
        constructor
        · exact hustart
        · show u.start_time < t + ex
          omega
      · rw [chainEnd_append, chainEnd_single]
      · intro j hjn
        have hold := hInv.ptime j hjn
        rw [hs, pidTime_append, pidTime_single] at hold
        rw [pidTime_append, pidTime_single]
        by_cases hj : j = sel
        · subst hj
          rw [if_pos (by simpa using hupid)] at hold ⊢
          rw [if_pos rfl]
          show pidTime (df.getD j dflt).pid s0 + (t + ex - u.start_time) =
            (df.getD j dflt).burst_time - rem.getD j 0 + ex
          omega
        · have hpne : u.pid ≠ SegId.P (df.getD j dflt).pid := by
            rw [hupid]
            intro he2
            exact pid_injective df hnd sel j hseln hjn (fun he3 => hj he3.symm) (by injection he2)
          rw [if_neg hpne] at hold
          rw [if_neg (by simpa using hpne), if_neg hj]
          omega
    · rw [if_neg hprev]
      refine ⟨?_, ?_, ?_, sched, ⟨SegId.P (df.getD sel dflt).pid, t, t + ex⟩, rfl, rfl, rfl⟩
      · rw [chainFrom_append, hInv.cend, hInv.chain, chainFrom_single]
        simp only [Bool.true_and, Bool.and_eq_true, decide_eq_true_eq]
        exact ⟨trivial, by omega⟩
      · rw [chainEnd_append, hInv.cend, chainEnd_single]
      · intro j hjn
        rw [pidTime_append, pidTime_single]
        by_cases hj : j = sel
        · subst hj
          rw [if_pos rfl, if_pos rfl, hInv.ptime j hjn]
          show (df.getD j dflt).burst_time - rem.getD j 0 + (t + ex - t) = _
          ring
        · have hpne : SegId.P (df.getD sel dflt).pid ≠ SegId.P (df.getD j dflt).pid := by
            intro he2
            exact pid_injective df hnd sel j hseln hjn (fun he3 => hj he3.symm) (by injection he2)
          rw [if_neg hpne, if_neg hj, hInv.ptime j hjn]
  obtain ⟨hchainS, hcendS, hptimeS, s0', u', hS2eq, hupid', huend'⟩ := hS
  have harith : (df.getD sel dflt).arrival_time + (df.getD sel dflt).burst_time ≤
      t + ex + (rem.getD sel 0 - ex) := by
    rcases lt_or_eq_of_le hrle with h | h
    · have := hInv.prog sel hseln h
      omega
    · omega
  by_cases hfin : rem.getD sel 0 - ex = 0
  · simp only [if_pos hfin]
    constructor
    · refine
        { lenC := by rw [List.length_set, hInv.lenC]
          lenR := by rw [List.length_set, hInv.lenR]
          lenK := by rw [List.length_set, hInv.lenK]
          cnt := by rw [count_set_true isC sel hselC hnC, hInv.cnt]
          tnn := by have := hInv.tnn; omega
          remDone := ?_, remAct := ?_, rle := ?_, prog := ?_, compDone := ?_
          chain := hchainS, cend := hcendS, ptime := ?_
          prevNP := fun h => Bool.noConfusion h
          prevSeg := ?_ }
      · intro j hjn hjC
        by_cases hj : j = sel
        · subst hj
          rw [hremNi, hfin]
        · rw [getD_set_ne isC sel j true false (fun he2 => hj he2.symm)] at hjC
          rw [hremNj j hj]
          exact hInv.remDone j hjn hjC
      · intro j hjn hjC
        by_cases hj : j = sel
        · subst hj
          rw [getD_set_self isC j true false hselC] at hjC
          cases hjC
        · rw [getD_set_ne isC sel j true false (fun he2 => hj he2.symm)] at hjC
          rw [hremNj j hj]
          exact hInv.remAct j hjn hjC
      · intro j hjn
        by_cases hj : j = sel
        · subst hj
          rw [hremNi]
          omega
        · rw [hremNj j hj]
          exact hInv.rle j hjn
      · intro j hjn hjlt
        by_cases hj : j = sel
        · subst hj
          rw [hremNi] at hjlt ⊢
          omega
        · rw [hremNj j hj] at hjlt ⊢
          have := hInv.prog j hjn hjlt
          omega
      · intro j hjn hjC
        by_cases hj : j = sel
        · subst hj
          rw [getD_set_self comp j _ 0 hselK]
          omega
        · rw [getD_set_ne isC sel j true false (fun he2 => hj he2.symm)] at hjC
          rw [getD_set_ne comp sel j _ 0 (fun he2 => hj he2.symm)]
          exact hInv.compDone j hjn hjC
      · intro j hjn
        rw [hptimeS j hjn]
        by_cases hj : j = sel
        · subst hj
          rw [if_pos rfl, hremNi]
          ring
        · rw [if_neg hj, hremNj j hj]
          ring
      · intro k hk
        have hks : k = sel := by
          injection hk with h
          exact h.symm
        subst hks
        refine ⟨hseln, by omega, ?_⟩
        intro hCf
        rw [getD_set_self isC k true false hselC] at hCf
        cases hCf
    · omega
  · simp only [if_neg hfin]
    constructor
    · refine
        { lenC := hInv.lenC
          lenR := by rw [List.length_set, hInv.lenR]
          lenK := hInv.lenK
          cnt := hInv.cnt
          tnn := by have := hInv.tnn; omega
          remDone := ?_, remAct := ?_, rle := ?_, prog := ?_, compDone := ?_
          chain := hchainS, cend := hcendS, ptime := ?_
          prevNP := fun h => Bool.noConfusion h
          prevSeg := ?_ }
      · intro j hjn hjC
        by_cases hj : j = sel
        · subst hj
          rw [hjC] at hnC
          cases hnC
        · rw [hremNj j hj]
          exact hInv.remDone j hjn hjC
      · intro j hjn hjC
        by_cases hj : j = sel
        · subst hj
          rw [hremNi]
          omega
        · rw [hremNj j hj]
          exact hInv.remAct j hjn hjC
      · intro j hjn
        by_cases hj : j = sel
        · subst hj
          rw [hremNi]
          omega
        · rw [hremNj j hj]
          exact hInv.rle j hjn
      · intro j hjn hjlt
        by_cases hj : j = sel
        · subst hj
          rw [hremNi] at hjlt ⊢
          rcases lt_or_eq_of_le hrle with h | h
          · have := hInv.prog j hjn h
            omega
          · omega
        · rw [hremNj j hj] at hjlt ⊢
          have := hInv.prog j hjn hjlt
          omega
      · intro j hjn hjC
        have := hInv.compDone j hjn hjC
        omega
      · intro j hjn
        rw [hptimeS j hjn]
        by_cases hj : j = sel
        · subst hj
          rw [if_pos rfl, hremNi]
          ring
        · rw [if_neg hj, hremNj j hj]
          ring
      · intro k hk
        have hks : k = sel := by
          injection hk with h
          exact h.symm
        subst hks
        refine ⟨hseln, by omega, ?_⟩
        intro _
        exact ⟨s0', u', hS2eq, hupid', huend'⟩
    · omega

theorem prio_idle_step (df : List Proc) (preemptive : Bool)
    (t : Int) (completed : Nat) (isC : List Bool) (rem comp : List Int) (prev : Option Nat)
    (sched : List Segment)
    (hInv : PrioInv df preemptive t completed isC rem comp prev sched)
    (hne : completed ≠ df.length)
    (hsel : prioSelect df t isC = none) :
    ∃ j, nextArrivalIdx df isC = some j ∧ j < df.length ∧
      t < (df.getD j dflt).arrival_time ∧
      PrioInv df preemptive ((df.getD j dflt).arrival_time) completed isC rem comp prev
        (sched ++ [⟨SegId.Idle, t, (df.getD j dflt).arrival_time⟩]) ∧
      ∃ sel2, prioSelect df ((df.getD j dflt).arrival_time) isC = some sel2 := by
  have hcnt : isC.count true ≠ isC.length := by
    rw [← hInv.cnt, hInv.lenC]
    exact hne
  obtain ⟨k, hk, hkC⟩ := count_true_lt isC hcnt
  have hkn : k < df.length := by rw [← hInv.lenC]; exact hk
  obtain ⟨j, hj⟩ := scanMinIdx_isSome (fun i => !(isC.getD i false))
    (fun i => (df.getD i dflt).arrival_time) df.length k hkn
    (by show (!isC.getD k false) = true; rw [hkC]; rfl)
  obtain ⟨hjn, hjne, _, _⟩ := scanMinIdx_some _ _ _ _ hj
  have hjC : isC.getD j false = false := by simpa using hjne
  have hjgt : t < (df.getD j dflt).arrival_time := by
    have hall := (scanMinIdx_none _ _ _).mp hsel j hjn
    unfold eligibleB at hall
    simp only [Bool.and_eq_false_iff, decide_eq_false_iff_not, not_le] at hall
    rcases hall with h | h
    · exact h
    · rw [Bool.not_eq_false'] at h
      rw [h] at hjC
      cases hjC
  refine ⟨j, hj, hjn, hjgt, ?_, ?_⟩
  · refine
      { lenC := hInv.lenC, lenR := hInv.lenR, lenK := hInv.lenK, cnt := hInv.cnt
        tnn := by have := hInv.tnn; omega
        remDone := hInv.remDone, remAct := hInv.remAct, rle := hInv.rle
        prog := ?_, compDone := hInv.compDone
        chain := ?_, cend := ?_, ptime := ?_
        prevNP := hInv.prevNP, prevSeg := ?_ }
    · intro i hi hlt
      have := hInv.prog i hi hlt
      omega
    · rw [chainFrom_append, hInv.cend, hInv.chain, chainFrom_single]
      simp only [Bool.true_and, Bool.and_eq_true, decide_eq_true_eq]
      exact ⟨trivial, hjgt⟩
    · rw [chainEnd_append, hInv.cend, chainEnd_single]
    · intro i hi
      rw [pidTime_append, pidTime_single, if_neg (by simp), hInv.ptime i hi]
      ring
    · intro k2 hk2
      obtain ⟨h1, h2, _⟩ := hInv.prevSeg k2 hk2
      refine ⟨h1, by omega, ?_⟩
      intro hCf
      exfalso
      have hallF := (scanMinIdx_none _ _ _).mp hsel k2 h1
      unfold eligibleB at hallF
      simp only [Bool.and_eq_false_iff, decide_eq_false_iff_not, not_le] at hallF
      rcases hallF with h | h
      · omega
      · rw [Bool.not_eq_false'] at h
        rw [h] at hCf
        cases hCf
  · exact scanMinIdx_isSome _ _ df.length j hjn
      (by unfold eligibleB; rw [hjC]; simp)

theorem prio_sel_step (df : List Proc) (preemptive : Bool)
    (hv : ∀ p ∈ df, 0 ≤ p.arrival_time ∧ 1 ≤ p.burst_time)
    (hnd : (df.map Proc.pid).Nodup)
    (t : Int) (completed : Nat) (isC : List Bool) (rem comp : List Int) (prev : Option Nat)
    (sched : List Segment) (sel : Nat)
    (hInv : PrioInv df preemptive t completed isC rem comp prev sched)
    (hne : completed ≠ df.length)
    (hsel : prioSelect df t isC = some sel) :
    ∃ t2 completed2 isC2 rem2 comp2 prev2 sched2,
      (∀ f : Nat, prioLoop df preemptive (f + 1) t completed isC rem comp prev sched =
        prioLoop df preemptive f t2 completed2 isC2 rem2 comp2 prev2 sched2) ∧
      PrioInv df preemptive t2 completed2 isC2 rem2 comp2 prev2 sched2 ∧
      rem2.sum + 1 ≤ rem.sum := by
  rcases Bool.eq_false_or_eq_true preemptive with hpre | hpre
  · subst hpre
    rcases hps : prioSlice df t completed isC rem comp prev sched sel with
      ⟨t2, completed2, isC2, rem2, comp2, sched2⟩
    obtain ⟨hInv2, hdec⟩ :=
      prio_p_step df hv hnd t completed isC rem comp prev sched sel hInv hsel
        t2 completed2 isC2 rem2 comp2 sched2 hps
    refine ⟨t2, completed2, isC2, rem2, comp2, some sel, sched2, ?_, hInv2, hdec⟩
    intro f
    conv_lhs => rw [prioLoop]
    simp only [if_neg hne, hsel]
    rw [hps]
    rfl
  · subst hpre
    obtain ⟨hInv2, hdec⟩ :=
      prio_np_step df hv hnd t completed isC rem comp prev sched hInv hsel
    refine ⟨_, _, _, _, _, _, _, ?_, hInv2, hdec⟩
    intro f
    conv_lhs => rw [prioLoop]
    simp only [if_neg hne, hsel]
    simp only [if_true]

theorem prioLoop_spec (df : List Proc) (preemptive : Bool)
    (hv : ∀ p ∈ df, 0 ≤ p.arrival_time ∧ 1 ≤ p.burst_time)
    (hnd : (df.map Proc.pid).Nodup) :
    ∀ fuel t completed isC rem comp prev sched,
      PrioInv df preemptive t completed isC rem comp prev sched →
      2 * rem.sum.toNat + 1 < fuel →
      ∃ sched2 comp2,
        prioLoop df preemptive fuel t completed isC rem comp prev sched =
          some (sched2, comp2) ∧
        chainFrom 0 sched2 = true ∧
        comp2.length = df.length ∧
        ∀ i, i < df.length →
          pidTime (df.getD i dflt).pid sched2 = (df.getD i dflt).burst_time ∧
          (df.getD i dflt).arrival_time + (df.getD i dflt).burst_time ≤ comp2.getD i 0 := by
  intro fuel
  induction fuel using Nat.strong_induction_on with
  | _ fuel ih =>
    intro t completed isC rem comp prev sched hInv hfuel
    by_cases hdone : completed = df.length
    · have hcnt : isC.count true = isC.length := by
        rw [← hInv.cnt, hdone, hInv.lenC]
      have hall : ∀ i, i < df.length → isC.getD i false = true := by
        intro i hi
        exact all_true_of_count isC hcnt i (by rw [hInv.lenC]; exact hi)
      refine ⟨sched, comp, ?_, hInv.chain, hInv.lenK, ?_⟩
      · cases fuel with
        | zero => simp [prioLoop, hdone]
        | succ fuel => simp [prioLoop, hdone]
      · intro i hi
        refine ⟨?_, hInv.compDone i hi (hall i hi)⟩
        have hp := hInv.ptime i hi
        rw [hInv.remDone i hi (hall i hi)] at hp
        rw [hp]
        ring
    · have hle : completed ≤ df.length := by
        rw [hInv.cnt, ← hInv.lenC]
        exact count_true_le isC
      obtain ⟨fuel', rfl⟩ : ∃ k, fuel = k + 1 := ⟨fuel - 1, by omega⟩
      rcases hsel : prioSelect df t isC with _ | sel
      · obtain ⟨j, hj, hjn, hjgt, hInv2, sel2, hsel2⟩ :=
          prio_idle_step df preemptive t completed isC rem comp prev sched hInv hdone hsel
        have hred : prioLoop df preemptive (fuel' + 1) t completed isC rem comp prev sched =
            prioLoop df preemptive fuel' ((df.getD j dflt).arrival_time) completed isC rem
              comp prev (sched ++ [⟨SegId.Idle, t, (df.getD j dflt).arrival_time⟩]) := by
          conv_lhs => rw [prioLoop]
          rw [if_neg hdone, hsel, hj]
        obtain ⟨fuel'', rfl⟩ : ∃ m, fuel' = m + 1 := ⟨fuel' - 1, by omega⟩
        obtain ⟨t2, completed2, isC2, rem2, comp2, prev2, sched2, heq, hInv3, hdec⟩ :=
          prio_sel_step df preemptive hv hnd _ completed isC rem comp prev _ sel2
            hInv2 hdone hsel2
        have hrnn2 : 0 ≤ rem2.sum := by
          apply sum_nonneg_getD
          intro i hi
          have hin : i < df.length := by rw [← hInv3.lenR]; exact hi
          cases hb : isC2.getD i false with
          | false =>
            have := hInv3.remAct i hin hb
            omega
          | true =>
            have := hInv3.remDone i hin hb
            omega
        rw [hred, heq fuel'']
        exact ih fuel'' (by omega) _ _ _ _ _ _ _ hInv3 (by omega)
      · obtain ⟨t2, completed2, isC2, rem2, comp2, prev2, sched2, heq, hInv3, hdec⟩ :=
          prio_sel_step df preemptive hv hnd t completed isC rem comp prev sched sel
            hInv hdone hsel
        have hrnn2 : 0 ≤ rem2.sum := by
          apply sum_nonneg_getD
          intro i hi
          have hin : i < df.length := by rw [← hInv3.lenR]; exact hi
          cases hb : isC2.getD i false with
          | false =>
            have := hInv3.remAct i hin hb
            omega
          | true =>
            have := hInv3.remDone i hin hb
            omega
        rw [heq fuel']
        exact ih fuel' (by omega) _ _ _ _ _ _ _ hInv3 (by omega)

theorem prio_run_spec (ps : List Proc) (preemptive : Bool) (hv : ValidInput ps) :
    ∃ sched m, priority_scheduling ps preemptive = some (sched, m) ∧
      chainFrom 0 sched = true ∧
      (∀ p ∈ ps, pidTime p.pid sched = p.burst_time) ∧
      (∀ r ∈ m, r.turnaround_time = r.completion_time - r.arrival_time ∧
        r.waiting_time = r.turnaround_time - r.burst_time ∧
        r.burst_time ≤ r.turnaround_time ∧ 0 ≤ r.waiting_time) ∧
      m.map rowKey = ps.map procKey ∧
      (ps ≠ [] → sched ≠ []) := by
  obtain ⟨hvv, hnd⟩ := hv
  have hrem : ∀ i, i < ps.length → (ps.map Proc.burst_time).getD i 0 =
      (ps.getD i dflt).burst_time := fun i hi => getD_map_proc Proc.burst_time ps i hi
  have hburst : ∀ i, i < ps.length → 1 ≤ (ps.getD i dflt).burst_time :=
    fun i hi => (hvv _ (getD_mem ps i hi)).2
  have hInv0 : PrioInv ps preemptive 0 0 (List.replicate ps.length false)
      (ps.map Proc.burst_time) (List.replicate ps.length 0) none [] := by
    refine
      { lenC := List.length_replicate ps.length false
        lenR := List.length_map ps Proc.burst_time
        lenK := List.length_replicate ps.length 0
        cnt := ?_, tnn := le_refl 0
        remDone := ?_, remAct := ?_, rle := ?_, prog := ?_, compDone := ?_
        chain := rfl, cend := rfl, ptime := ?_
        prevNP := fun _ => rfl, prevSeg := ?_ }
    · symm
      rw [List.count_eq_zero]
      intro hmem
      exact (Bool.false_ne_true (List.eq_of_mem_replicate hmem).symm).elim
    · intro i hi hC
      rw [getD_replicate_self false ps.length i] at hC
      cases hC
    · intro i hi _
      rw [hrem i hi]
      exact hburst i hi
    · intro i hi
      rw [hrem i hi]
    · intro i hi hlt
      rw [hrem i hi] at hlt
      omega
    · intro i hi hC
      rw [getD_replicate_self false ps.length i] at hC
      cases hC
    · intro i hi
      rw [pidTime_nil, hrem i hi]
      ring
    · intro k hk
      cases hk
  have hsum0 : (ps.map Proc.burst_time).sum = sumBurst ps := rfl
  obtain ⟨sched2, comp2, hres, hchain, hlen, hfacts⟩ :=
    prioLoop_spec ps preemptive hvv hnd (prioFuel ps) 0 0 _ _ _ none [] hInv0
      (by unfold prioFuel; rw [hsum0]; omega)
  refine ⟨sched2, mkMetrics ps comp2, ?_, hchain, ?_, ?_, mkMetrics_rowKey ps comp2, ?_⟩
  · unfold priority_scheduling
    rw [hres]
  · intro p hp
    obtain ⟨i, hi, rfl⟩ := (mem_iff_getD ps p).mp hp
    exact (hfacts i hi).1
  · exact mkMetrics_ok ps comp2 fun i hi => (hfacts i hi).2
  · intro hne hnil
    obtain ⟨p, hp⟩ := List.exists_mem_of_ne_nil ps hne
    obtain ⟨i, hi, rfl⟩ := (mem_iff_getD ps p).mp hp
    have h1 := (hfacts i hi).1
    have hb := (hvv _ (getD_mem ps i hi)).2
    rw [hnil, pidTime_nil] at h1
    omega

theorem fcfsLE_trans : ∀ a b c : Proc, fcfsLE a b → fcfsLE b c → fcfsLE a c := by
  intro a b c hab hbc
  unfold fcfsLE at *
  simp only [Bool.or_eq_true, Bool.and_eq_true, decide_eq_true_eq] at *
  omega

theorem fcfsLE_total : ∀ a b : Proc, fcfsLE a b || fcfsLE b a := by
  intro a b
  unfold fcfsLE
  simp only [Bool.or_eq_true, Bool.and_eq_true, decide_eq_true_eq]
  omega

theorem fcfs_run_spec (ps : List Proc) (hv : ValidInput ps) :
    chainFrom 0 (fcfs ps).1 = true ∧
    (∀ p ∈ ps, pidTime p.pid (fcfs ps).1 = p.burst_time) ∧
    (∀ r ∈ (fcfs ps).2, r.turnaround_time = r.completion_time - r.arrival_time ∧
      r.waiting_time = r.turnaround_time - r.burst_time ∧
      r.burst_time ≤ r.turnaround_time ∧ 0 ≤ r.waiting_time) ∧
    (fcfs ps).2.map rowKey = (fcfsSort ps).map procKey ∧
    (ps ≠ [] → (fcfs ps).1 ≠ []) := by
  obtain ⟨hvv, hnd⟩ := hv
  have hperm : List.Perm (fcfsSort ps) ps := List.mergeSort_perm ps fcfsLE
  have hvs : ∀ p ∈ fcfsSort ps, 0 ≤ p.arrival_time ∧ 1 ≤ p.burst_time := by
    intro p hp
    exact hvv p (hperm.mem_iff.mp hp)
  have hnds : ((fcfsSort ps).map Proc.pid).Nodup := by
    have hp2 : List.Perm ((fcfsSort ps).map Proc.pid) (ps.map Proc.pid) := hperm.map Proc.pid
    exact hp2.nodup_iff.mpr hnd
  obtain ⟨hchain, _, htime, hrows, hmet, hnonempty⟩ :=
    fcfsGo_spec (fcfsSort ps) 0 (le_refl 0) hvs hnds
  refine ⟨hchain, ?_, hmet, hrows, ?_⟩
  · intro p hp
    exact htime p (hperm.mem_iff.mpr hp)
  · intro hne
    apply hnonempty
    intro hnil
    apply hne
    exact ((hnil ▸ hperm).symm).eq_nil

theorem fcfsSort_sorted (ps : List Proc) :
    List.Pairwise (fun a b => fcfsLE a b = true) (fcfsSort ps) := by
  have h := List.sorted_mergeSort fcfsLE_trans fcfsLE_total ps
  exact h

/-! ### Call-level wrappers

The source functions receive the caller's DataFrame by reference and operate
on a rebound local (fcfs line 28: sort_values returns a new frame) or an
explicit copy (sjf line 88, round_robin line 170, priority_scheduling line
275); none of them assigns through the `processes` reference.  The wrappers
model a call as (result, caller's collection after the call). -/

def fcfsCall (store : List Proc) : (List Segment × List MetricsRow) × List Proc :=
  (fcfs store, store)

def sjfCall (store : List Proc) : Option (List Segment × List MetricsRow) × List Proc :=
  (sjf store, store)

def rrCall (store : List Proc) (tq : Int) :
    Option (List Segment × List MetricsRow) × List Proc :=
  (round_robin store tq, store)

def prioCall (store : List Proc) (preemptive : Bool) :
    Option (List Segment × List MetricsRow) × List Proc :=
  (priority_scheduling store preemptive, store)

/-! ### Concrete inputs used by the claims -/

/-- The spec's FCFS example input, with distinct priorities. -/
def demo : List Proc := [⟨1, 0, 5, 1⟩, ⟨2, 1, 3, 2⟩, ⟨3, 2, 8, 3⟩]

/-- Round-robin input where P3 (row index 2) arrives before P2 (row index 1)
but sits later in the caller's row order; both arrive during P1's first
slice. -/
def cex1 : List Proc := [⟨1, 0, 5, 1⟩, ⟨2, 3, 2, 1⟩, ⟨3, 2, 2, 1⟩]

/-- One-process input used to exhibit round_robin's divergence at
time_quantum 0. -/
def cex3 : List Proc := [⟨1, 0, 1, 1⟩]

/-- Two processes with equal burst and arrival; the one with the smaller pid
sits at row index 1. -/
def cex4 : List Proc := [⟨2, 0, 5, 1⟩, ⟨1, 0, 5, 1⟩]

/-- The spec's preemptive-priority example input. -/
def procs8 : List Proc := [⟨1, 0, 10, 2⟩, ⟨2, 3, 4, 1⟩]

/-! ### Claims -/

/-- Claim C2, counterexample: on the empty process set the entry points
return a normal (empty) result instead of rejecting with an
EmptyInputError — no validation exists in the source. -/
theorem claim_C2_cex : fcfs [] = ([], []) ∧ sjf [] = some ([], []) := by
  constructor
  · unfold fcfs fcfsSort
    rw [List.mergeSort_nil]
    rfl
  · decide

/-- Claim C2 (amended): none of the four entry points validates its input;
on an empty process set each returns an empty schedule and an empty metrics
table without error (the empty-input check lives in the caller, app.py
lines 60-62). -/
theorem claim_C2 :
    fcfs [] = ([], []) ∧ sjf [] = some ([], []) ∧ round_robin [] 3 = some ([], []) ∧
    priority_scheduling [] false = some ([], []) ∧
    priority_scheduling [] true = some ([], []) := by
  refine ⟨?_, by decide, by decide, by decide, by decide⟩
  unfold fcfs fcfsSort
  rw [List.mergeSort_nil]
  rfl

/-- Claim C3, counterexample: round_robin does not reject time_quantum = 0;
on a non-empty input its loop never finishes (fuel exhaustion at the entry
point's own bound), so no InvalidParameterError-style rejection happens. -/
theorem claim_C3_cex : round_robin cex3 0 = none ∧ cex3 ≠ [] := by decide

/-- Claim C3 (amended): round_robin performs no validation of time_quantum;
with time_quantum = 0 and a non-empty process set every slice has length
min(0, remaining) = 0, the state repeats, and the loop never terminates for
any iteration bound (the UI constrains the quantum to ≥ 1 upstream). -/
theorem claim_C3 :
    (∀ fuel : Nat, ∀ sched : List Segment,
      rrLoop cex3 0 fuel 0 [0] [1] [0] sched = none) ∧
    round_robin cex3 0 = none := by
  constructor
  · intro fuel
    induction fuel with
    | zero => intro sched; rfl
    | succ fuel ih =>
      intro sched
      have hstep : rrLoop cex3 0 (fuel + 1) 0 [0] [1] [0] sched =
          rrLoop cex3 0 fuel 0 [0] [1] [0] (sched ++ [⟨SegId.P 1, 0, 0⟩]) := by
        conv_lhs => rw [rrLoop]
        rfl
      rw [hstep]
      exact ih (sched ++ [⟨SegId.P 1, 0, 0⟩])
  · decide

/-- Claim C4, counterexample: at time 0 both processes of cex4 are arrived
and tie on burst_time, the smaller pid is 1 (at row index 1), yet sjf runs
pid 2 (row index 0) first: the tie-break is the row index, not
(arrival_time, id). -/
theorem claim_C4_cex :
    (sjf cex4).map Prod.fst =
      some [⟨SegId.P 2, 0, 5⟩, ⟨SegId.P 1, 5, 10⟩] ∧
    (cex4.getD 0 dflt).burst_time = (cex4.getD 1 dflt).burst_time ∧
    (cex4.getD 0 dflt).arrival_time = (cex4.getD 1 dflt).arrival_time ∧
    (cex4.getD 1 dflt).pid < (cex4.getD 0 dflt).pid := by decide

/-- Claim C4 (amended): at every decision point sjf selects an arrived,
uncompleted process of minimum burst_time, and among equal minima it selects
the one of lowest row index in the caller's order (the scan keeps the first
strict minimum), not the lowest (arrival_time, id). -/
theorem claim_C4 (df : List Proc) (t : Int) (isC : List Bool) (i : Nat)
    (h : sjfSelect df t isC = some i) :
    i < df.length ∧ eligibleB df t isC i = true ∧
    (∀ j, j < df.length → eligibleB df t isC j = true →
      (df.getD i dflt).burst_time ≤ (df.getD j dflt).burst_time) ∧
    (∀ j, j < i → eligibleB df t isC j = true →
      (df.getD i dflt).burst_time < (df.getD j dflt).burst_time) :=
  scanMinIdx_some _ _ _ _ h

theorem claim_C4_witness :
    sjfSelect cex4 0 [false, false] = some 0 ∧
    (0 < cex4.length ∧ eligibleB cex4 0 [false, false] 0 = true ∧
      (∀ j, j < cex4.length → eligibleB cex4 0 [false, false] j = true →
        (cex4.getD 0 dflt).burst_time ≤ (cex4.getD j dflt).burst_time) ∧
      (∀ j, j < 0 → eligibleB cex4 0 [false, false] j = true →
        (cex4.getD 0 dflt).burst_time < (cex4.getD j dflt).burst_time)) :=
  ⟨by decide, claim_C4 cex4 0 [false, false] 0 (by decide)⟩

/-- Claim C8: preemptive priority on [{P1,0,10,prio 2},{P2,3,4,prio 1}]
produces exactly P1:0-3, P2:3-7, P1:7-14 with completion times 14 and 7
(the slice lengths follow min(remaining, next arrival - clock) and the
selection rule is re-run after each slice, as embedded in prioSlice and
prioLoop). -/
theorem claim_C8 :
    priority_scheduling procs8 true =
      some ([⟨SegId.P 1, 0, 3⟩, ⟨SegId.P 2, 3, 7⟩, ⟨SegId.P 1, 7, 14⟩],
        [⟨1, 0, 10, 2, 14, 14, 4⟩, ⟨2, 3, 4, 1, 7, 4, 0⟩]) := by decide

/-- Claim C9: each algorithm is a pure function of its input — invoking it
again on the collection returned after a first call yields the same result,
and the caller's collection is returned unchanged (the source rebinds a
sorted copy or an explicit .copy() and never writes through the argument). -/
theorem claim_C9 (ps : List Proc) (tq : Int) (pre : Bool) :
    (fcfsCall ((fcfsCall ps).2)).1 = (fcfsCall ps).1 ∧ (fcfsCall ((fcfsCall ps).2)).2 = ps ∧
    (sjfCall ((sjfCall ps).2)).1 = (sjfCall ps).1 ∧ (sjfCall ((sjfCall ps).2)).2 = ps ∧
    (rrCall ((rrCall ps tq).2) tq).1 = (rrCall ps tq).1 ∧
    (rrCall ((rrCall ps tq).2) tq).2 = ps ∧
    (prioCall ((prioCall ps pre).2) pre).1 = (prioCall ps pre).1 ∧
    (prioCall ((prioCall ps pre).2) pre).2 = ps :=
  ⟨rfl, rfl, rfl, rfl, rfl, rfl, rfl, rfl⟩

theorem bool_eq_of_iff {a b : Bool} (h : a = true ↔ b = true) : a = b := by
  cases a <;> cases b <;> simp_all

theorem rrTest_iff (df : List Proc) (t : Int) (rem : List Int) (excl : Option Nat)
    (q : List Nat) (j : Nat) :
    rrTest df t rem excl q j = true ↔
      ((df.getD j dflt).arrival_time ≤ t ∧ 0 < rem.getD j 0 ∧ ¬ j ∈ q ∧ excl ≠ some j) := by
  unfold rrTest
  rw [Bool.and_eq_true, Bool.and_eq_true, Bool.and_eq_true]
  rw [decide_eq_true_eq, decide_eq_true_eq]
  rw [Bool.not_eq_true', Bool.not_eq_true']
  rw [beq_eq_false_iff_ne]
  constructor
  · intro ⟨⟨⟨h1, h2⟩, h3⟩, h4⟩
    refine ⟨h1, h2, ?_, h4⟩
    simp only [List.contains, List.elem_eq_mem, decide_eq_false_iff_not] at h3
    exact h3
  · intro ⟨h1, h2, h3, h4⟩
    refine ⟨⟨⟨h1, h2⟩, ?_⟩, h4⟩
    simp only [List.contains, List.elem_eq_mem, decide_eq_false_iff_not]
    exact h3

/-- Claim C1, counterexample: with quantum 5 on cex1, P2 and P3 both arrive
during P1's slice [0,5]; P3 arrived at 2, before P2 at 3, but the code
enqueues P2 first (row order), so the schedule is P1, P2, P3 — not the
arrival order P1, P3, P2 that the claim dictates. -/
theorem claim_C1_cex :
    (round_robin cex1 5).map Prod.fst =
      some [⟨SegId.P 1, 0, 5⟩, ⟨SegId.P 2, 5, 7⟩, ⟨SegId.P 3, 7, 9⟩] ∧
    (cex1.getD 2 dflt).arrival_time < (cex1.getD 1 dflt).arrival_time := by decide

/-- Claim C1 (amended): whenever round_robin pops and runs process i for a
slice, exactly the processes that arrived during the slice (arrival in
(t, t+slice], positive remaining burst, distinct from i) are appended to the
ready queue before i is re-enqueued at the tail — but in ascending row-index
order of the caller's collection, not sorted by (arrival_time, id). -/
theorem claim_C1 (df : List Proc) (tq t : Int) (i : Nat) (q' : List Nat)
    (rem comp : List Int) (sched : List Segment)
    (hnd : (i :: q').Nodup)
    (hqarr : ∀ j ∈ i :: q', (df.getD j dflt).arrival_time ≤ t)
    (hful : ∀ j, j < df.length → 0 < rem.getD j 0 → (df.getD j dflt).arrival_time ≤ t →
      j ∈ i :: q')
    (hrlen : i < rem.length) :
    rrSlice df tq t i q' rem comp sched =
      (t + min tq (rem.getD i 0),
        (q' ++ (List.range df.length).filter (fun j => decide (j ≠ i) &&
            decide (0 < rem.getD j 0) && decide (t < (df.getD j dflt).arrival_time) &&
            decide ((df.getD j dflt).arrival_time ≤ t + min tq (rem.getD i 0)))) ++
          (if 0 < rem.getD i 0 - min tq (rem.getD i 0) then [i] else []),
        rem.set i (rem.getD i 0 - min tq (rem.getD i 0)),
        (if 0 < rem.getD i 0 - min tq (rem.getD i 0) then comp
          else comp.set i (t + min tq (rem.getD i 0))),
        sched ++ [⟨SegId.P (df.getD i dflt).pid, t, t + min tq (rem.getD i 0)⟩]) ∧
    List.Pairwise (· < ·) ((List.range df.length).filter (fun j => decide (j ≠ i) &&
      decide (0 < rem.getD j 0) && decide (t < (df.getD j dflt).arrival_time) &&
      decide ((df.getD j dflt).arrival_time ≤ t + min tq (rem.getD i 0)))) := by
  have hiq' : ¬ i ∈ q' := (List.nodup_cons.mp hnd).1
  have hgi : (rem.set i (rem.getD i 0 - min tq (rem.getD i 0))).getD i 0 =
      rem.getD i 0 - min tq (rem.getD i 0) := getD_set_self rem i _ 0 hrlen
  constructor
  · unfold rrSlice
    rw [hgi]
    have hq2 : rrEnqueue df (t + min tq (rem.getD i 0))
        (rem.set i (rem.getD i 0 - min tq (rem.getD i 0))) (some i) q' =
        q' ++ (List.range df.length).filter (fun j => decide (j ≠ i) &&
          decide (0 < rem.getD j 0) && decide (t < (df.getD j dflt).arrival_time) &&
          decide ((df.getD j dflt).arrival_time ≤ t + min tq (rem.getD i 0))) := by
      rw [rrEnqueue_spec]
      congr 1
      apply List.filter_congr
      intro j hj
      have hjn : j < df.length := List.mem_range.mp hj
      apply bool_eq_of_iff
      rw [rrTest_iff]
      simp only [Bool.and_eq_true, decide_eq_true_eq]
      constructor
      · intro ⟨harr2, hpos2, hnq, hnei⟩
        have hji : j ≠ i := fun he => hnei (congrArg some he.symm)
        have hpos : 0 < rem.getD j 0 := by
          rwa [getD_set_ne rem i j _ 0 (fun he => hji he.symm)] at hpos2
        have hgt : t < (df.getD j dflt).arrival_time := by
          by_contra hle
          push_neg at hle
          rcases List.mem_cons.mp (hful j hjn hpos hle) with h | h
          · exact hji h
          · exact hnq h
        exact ⟨⟨⟨hji, hpos⟩, hgt⟩, harr2⟩
      · intro ⟨⟨⟨hji, hpos⟩, hgt⟩, harr2⟩
        refine ⟨harr2, ?_, ?_, ?_⟩
        · rwa [getD_set_ne rem i j _ 0 (fun he => hji he.symm)]
        · intro hjq
          have := hqarr j (List.mem_cons_of_mem i hjq)
          omega
        · intro he
          injection he with h
          exact hji h.symm
    rw [hq2]
    by_cases hc : 0 < rem.getD i 0 - min tq (rem.getD i 0)
    · simp only [if_pos hc]
    · simp only [if_neg hc, List.append_nil]
  · exact List.Pairwise.filter _ (List.pairwise_lt_range df.length)

theorem claim_C1_witness :
    rrSlice cex1 5 0 0 [] [5, 2, 2] [0, 0, 0] [] =
      (5, [1, 2], [0, 2, 2], [5, 0, 0], [⟨SegId.P 1, 0, 5⟩]) ∧
    List.Pairwise (· < ·) ([1, 2] : List Nat) := by
  have h := (claim_C1 cex1 5 0 0 [] [5, 2, 2] [0, 0, 0] []
    (by decide) (by decide) (by decide) (by decide)).1
  rw [h]
  constructor
  · decide
  · decide

/-- Tiling property of claim C5 for one schedule: non-empty, contiguous from
time 0 with every entry of positive length (so the first entry starts at 0
and consecutive entries share their boundary), and each process's non-Idle
time sums to its burst. -/
def TilingOK (ps : List Proc) (sched : List Segment) : Prop :=
  sched ≠ [] ∧ chainFrom 0 sched = true ∧ ∀ p ∈ ps, pidTime p.pid sched = p.burst_time

/-- Metrics identities and bounds of claim C6 for one metrics table. -/
def MetricsOK (m : List MetricsRow) : Prop :=
  ∀ r ∈ m, r.turnaround_time = r.completion_time - r.arrival_time ∧
    r.waiting_time = r.turnaround_time - r.burst_time ∧
    r.burst_time ≤ r.turnaround_time ∧ 0 ≤ r.waiting_time

/-- Claim C5: for every algorithm and every non-empty valid input the
returned schedule tiles [0, makespan): it starts at 0, every segment has
end_time > start_time, consecutive segments are contiguous, and each
process's non-Idle segment durations sum to its burst_time. -/
theorem claim_C5 (ps : List Proc) (tq : Int) (pre : Bool)
    (hne : ps ≠ []) (hv : ValidInput ps) (htq : 1 ≤ tq) :
    TilingOK ps (fcfs ps).1 ∧
    (∃ s m, sjf ps = some (s, m) ∧ TilingOK ps s) ∧
    (∃ s m, round_robin ps tq = some (s, m) ∧ TilingOK ps s) ∧
    (∃ s m, priority_scheduling ps pre = some (s, m) ∧ TilingOK ps s) := by
  obtain ⟨hch, hpt, _, _, hnn⟩ := fcfs_run_spec ps hv
  obtain ⟨s1, m1, h1, hc1, hp1, _, _, hn1⟩ := sjf_run_spec ps hv
  obtain ⟨s2, m2, h2, hc2, hp2, _, _, hn2⟩ := rr_run_spec ps tq hv htq
  obtain ⟨s3, m3, h3, hc3, hp3, _, _, hn3⟩ := prio_run_spec ps pre hv
  exact ⟨⟨hnn hne, hch, hpt⟩,
    ⟨s1, m1, h1, hn1 hne, hc1, hp1⟩,
    ⟨s2, m2, h2, hn2 hne, hc2, hp2⟩,
    ⟨s3, m3, h3, hn3 hne, hc3, hp3⟩⟩

theorem claim_C5_witness :
    demo ≠ [] ∧ ValidInput demo ∧ (1 : Int) ≤ 2 ∧
    (TilingOK demo (fcfs demo).1 ∧
      (∃ s m, sjf demo = some (s, m) ∧ TilingOK demo s) ∧
      (∃ s m, round_robin demo 2 = some (s, m) ∧ TilingOK demo s) ∧
      (∃ s m, priority_scheduling demo true = some (s, m) ∧ TilingOK demo s)) :=
  ⟨by decide, by decide, by decide,
    claim_C5 demo 2 true (by decide) (by decide) (by decide)⟩

/-- Claim C6: for every algorithm and every valid input, every metrics row
satisfies turnaround = completion - arrival and waiting = turnaround - burst,
with turnaround ≥ burst and waiting ≥ 0. -/
theorem claim_C6 (ps : List Proc) (tq : Int) (pre : Bool)
    (hv : ValidInput ps) (htq : 1 ≤ tq) :
    MetricsOK (fcfs ps).2 ∧
    (∃ s m, sjf ps = some (s, m) ∧ MetricsOK m) ∧
    (∃ s m, round_robin ps tq = some (s, m) ∧ MetricsOK m) ∧
    (∃ s m, priority_scheduling ps pre = some (s, m) ∧ MetricsOK m) := by
  obtain ⟨_, _, hmet, _, _⟩ := fcfs_run_spec ps hv
  obtain ⟨s1, m1, h1, _, _, hm1, _, _⟩ := sjf_run_spec ps hv
  obtain ⟨s2, m2, h2, _, _, hm2, _, _⟩ := rr_run_spec ps tq hv htq
  obtain ⟨s3, m3, h3, _, _, hm3, _, _⟩ := prio_run_spec ps pre hv
  exact ⟨hmet, ⟨s1, m1, h1, hm1⟩, ⟨s2, m2, h2, hm2⟩, ⟨s3, m3, h3, hm3⟩⟩

theorem claim_C6_witness :
    ValidInput demo ∧ (1 : Int) ≤ 3 ∧
    (MetricsOK (fcfs demo).2 ∧
      (∃ s m, sjf demo = some (s, m) ∧ MetricsOK m) ∧
      (∃ s m, round_robin demo 3 = some (s, m) ∧ MetricsOK m) ∧
      (∃ s m, priority_scheduling demo false = some (s, m) ∧ MetricsOK m)) :=
  ⟨by decide, by decide, claim_C6 demo 3 false (by decide) (by decide)⟩

/-- Claim C7: for valid inputs (burst_time > 0, and time_quantum ≥ 1 for
round_robin) each of the four algorithms terminates — the fueled loops
finish within the entry points' own bounds (fcfs is structurally
terminating) — and every emitted segment, in particular every idle-skip
segment, strictly increases the clock. -/
theorem claim_C7 (ps : List Proc) (tq : Int) (pre : Bool)
    (hv : ValidInput ps) (htq : 1 ≤ tq) :
    (sjf ps).isSome = true ∧ (round_robin ps tq).isSome = true ∧
    (priority_scheduling ps pre).isSome = true ∧
    (∀ s ∈ (fcfs ps).1, s.start_time < s.end_time) ∧
    (∀ sc m, sjf ps = some (sc, m) → ∀ s ∈ sc, s.start_time < s.end_time) ∧
    (∀ sc m, round_robin ps tq = some (sc, m) → ∀ s ∈ sc, s.start_time < s.end_time) ∧
    (∀ sc m, priority_scheduling ps pre = some (sc, m) →
      ∀ s ∈ sc, s.start_time < s.end_time) := by
  obtain ⟨hch, _, _, _, _⟩ := fcfs_run_spec ps hv
  obtain ⟨s1, m1, h1, hc1, _⟩ := sjf_run_spec ps hv
  obtain ⟨s2, m2, h2, hc2, _⟩ := rr_run_spec ps tq hv htq
  obtain ⟨s3, m3, h3, hc3, _⟩ := prio_run_spec ps pre hv
  refine ⟨by rw [h1]; rfl, by rw [h2]; rfl, by rw [h3]; rfl,
    chainFrom_pos 0 _ hch, ?_, ?_, ?_⟩
  · intro sc m hsm
    rw [h1] at hsm
    injection hsm with h
    injection h with ha hb
    subst ha
    exact chainFrom_pos 0 s1 hc1
  · intro sc m hsm
    rw [h2] at hsm
    injection hsm with h
    injection h with ha hb
    subst ha
    exact chainFrom_pos 0 s2 hc2
  · intro sc m hsm
    rw [h3] at hsm
    injection hsm with h
    injection h with ha hb
    subst ha
    exact chainFrom_pos 0 s3 hc3

theorem claim_C7_witness :
    ValidInput demo ∧ (1 : Int) ≤ 1 ∧
    ((sjf demo).isSome = true ∧ (round_robin demo 1).isSome = true ∧
      (priority_scheduling demo true).isSome = true ∧
      (∀ s ∈ (fcfs demo).1, s.start_time < s.end_time) ∧
      (∀ sc m, sjf demo = some (sc, m) → ∀ s ∈ sc, s.start_time < s.end_time) ∧
      (∀ sc m, round_robin demo 1 = some (sc, m) → ∀ s ∈ sc, s.start_time < s.end_time) ∧
      (∀ sc m, priority_scheduling demo true = some (sc, m) →
        ∀ s ∈ sc, s.start_time < s.end_time)) :=
  ⟨by decide, by decide, claim_C7 demo 1 true (by decide) (by decide)⟩

/-- Claim C10: fcfs returns its metrics rows reordered ascending by
(arrival_time, pid) — the rows follow the sorted copy of the input — whereas
sjf, round_robin and priority_scheduling return rows in the caller's input
order; in all four, each row carries the pid, arrival, burst and priority of
the process it describes. -/
theorem claim_C10 (ps : List Proc) (tq : Int) (hv : ValidInput ps) (htq : 1 ≤ tq) :
    (fcfs ps).2.map rowKey = (fcfsSort ps).map procKey ∧
    List.Pairwise (fun a b => fcfsLE a b = true) (fcfsSort ps) ∧
    (∃ s m, sjf ps = some (s, m) ∧ m.map rowKey = ps.map procKey) ∧
    (∃ s m, round_robin ps tq = some (s, m) ∧ m.map rowKey = ps.map procKey) ∧
    (∃ s m, priority_scheduling ps false = some (s, m) ∧ m.map rowKey = ps.map procKey) ∧
    (∃ s m, priority_scheduling ps true = some (s, m) ∧ m.map rowKey = ps.map procKey) := by
  obtain ⟨_, _, _, hrows, _⟩ := fcfs_run_spec ps hv
  obtain ⟨s1, m1, h1, _, _, _, hk1, _⟩ := sjf_run_spec ps hv
  obtain ⟨s2, m2, h2, _, _, _, hk2, _⟩ := rr_run_spec ps tq hv htq
  obtain ⟨s3, m3, h3, _, _, _, hk3, _⟩ := prio_run_spec ps false hv
  obtain ⟨s4, m4, h4, _, _, _, hk4, _⟩ := prio_run_spec ps true hv
  exact ⟨hrows, fcfsSort_sorted ps, ⟨s1, m1, h1, hk1⟩, ⟨s2, m2, h2, hk2⟩,
    ⟨s3, m3, h3, hk3⟩, ⟨s4, m4, h4, hk4⟩⟩

theorem claim_C10_witness :
    ValidInput demo ∧ (1 : Int) ≤ 2 ∧
    ((fcfs demo).2.map rowKey = (fcfsSort demo).map procKey ∧
      List.Pairwise (fun a b => fcfsLE a b = true) (fcfsSort demo) ∧
      (∃ s m, sjf demo = some (s, m) ∧ m.map rowKey = demo.map procKey) ∧
      (∃ s m, round_robin demo 2 = some (s, m) ∧ m.map rowKey = demo.map procKey) ∧
      (∃ s m, priority_scheduling demo false = some (s, m) ∧
        m.map rowKey = demo.map procKey) ∧
      (∃ s m, priority_scheduling demo true = some (s, m) ∧
        m.map rowKey = demo.map procKey)) :=
  ⟨by decide, by decide, claim_C10 demo 2 (by decide) (by decide)⟩

end CPUSched
